import Mathlib

/-!
# terraform-elastic-backend: state storage, field encryption and locking

A shallow embedding of the `elasticop` package (`crypt.go`, `store_state.go`,
`get_state.go`, `dlock.go`) together with the two services it talks to: the Vault transit
engine and the Elasticsearch cluster.

Conventions of the embedding

* A decoded JSON document is a Go `interface{}` tree; `Value` lists the dynamic types
  that occur in the package.
* A Go `map[string]interface{}` is the list of its entries.  The order of the list is the
  order in which a `range` statement visits the entries, which the Go runtime chooses; a
  statement about all lists is a statement about every order.
* Decoding the request body (`json.Unmarshal`) is not part of the embedding: `StoreState`
  starts from the decoded tree, so what decoding does to a number (rounding to the nearest
  double) lies outside every statement here.
* A Go `error` is `Option String` (`none` is `nil`).
* A run-time panic (failed type assertion, write to a nil map) is the outcome `Go.panic`.
* Every call the package makes to Vault is appended to a log of `Call`s; the answer of Vault
  may depend on all earlier calls, so the transit engine need not be deterministic.
-/

namespace Tfb

/-! ## Go values -/

/-- The dynamic types held by the `interface{}` trees of the package.  `float64` carries the
text that the `%v` verb prints for the number (the shortest decimal that reads back as the
same double), so two numbers are equal exactly when their texts are.  `mapSlice` is the
type `[]map[string]interface{}` which `GetResources` returns. -/
inductive Value where
  | nil
  | bool (b : Bool)
  | float64 (text : String)
  | string (s : String)
  | slice (xs : List Value)
  | map (kvs : List (String × Value))
  | mapSlice (ms : List (List (String × Value)))

/-- The Go type `map[string]interface{}`. -/
abbrev GoMap := List (String × Value)

/-- The Go expression `m[k]` with the comma-ok form: the value stored under `k`, if any. -/
def mapIndex : GoMap → String → Option Value
  | [], _ => none
  | (k, v) :: rest, key => if k = key then some v else mapIndex rest key

/-- The Go statement `m[k] = v`. -/
def mapAssign : GoMap → String → Value → GoMap
  | [], key, v => [(key, v)]
  | (k, old) :: rest, key, v =>
    if k = key then (k, v) :: rest else (k, old) :: mapAssign rest key v

/-- The Go statement `delete(m, k)`. -/
def mapDelete : GoMap → String → GoMap
  | [], _ => []
  | (k, v) :: rest, key =>
    if k = key then mapDelete rest key else (k, v) :: mapDelete rest key

/-- Go `strings.HasPrefix`. -/
def HasPrefix (s pre : String) : Bool := pre.data.isPrefixOf s.data

/-- Go `strings.TrimPrefix`. -/
def TrimPrefix (s pre : String) : String :=
  if HasPrefix s pre then String.mk (s.data.drop pre.data.length) else s

/-- Lexicographic order on character lists, the order of Go's `<` on strings. -/
def charsLt : List Char → List Char → Bool
  | _, [] => false
  | [], _ :: _ => true
  | a :: as, b :: bs =>
    if a.toNat < b.toNat then true
    else if b.toNat < a.toNat then false
    else charsLt as bs

/-- Go `a < b` on strings. -/
def strLt (a b : String) : Bool := charsLt a.data b.data

/-- Insert a rendered map entry so that the keys stay in increasing order. -/
def insertByKey (p : String × String) : List (String × String) → List (String × String)
  | [] => [p]
  | q :: rest => if strLt q.1 p.1 then q :: insertByKey p rest else p :: q :: rest

/-- The entries of a map sorted by key, as `fmt` prints them. -/
def sortByKey : List (String × String) → List (String × String)
  | [] => []
  | p :: rest => insertByKey p (sortByKey rest)

/-- The text `map[k1:v1 k2:v2]` of already rendered entries. -/
def sprintEntries (rendered : List (String × String)) : String :=
  "map[" ++ " ".intercalate ((sortByKey rendered).map fun p => p.1 ++ ":" ++ p.2) ++ "]"

mutual
/-- Go `fmt.Sprint(val)` for one operand. -/
def Sprint : Value → String
  | .nil => "<nil>"
  | .bool b => if b then "true" else "false"
  | .float64 text => text
  | .string s => s
  | .slice xs => "[" ++ " ".intercalate (sprintSlice xs) ++ "]"
  | .map kvs => sprintEntries (sprintMap kvs)
  | .mapSlice ms => "[" ++ " ".intercalate (sprintMapSlice ms) ++ "]"
/-- The rendered elements of a slice. -/
def sprintSlice : List Value → List String
  | [] => []
  | x :: xs => Sprint x :: sprintSlice xs
/-- The rendered entries of a map, before sorting. -/
def sprintMap : List (String × Value) → List (String × String)
  | [] => []
  | (k, v) :: rest => (k, Sprint v) :: sprintMap rest
/-- The rendered elements of a slice of maps. -/
def sprintMapSlice : List (List (String × Value)) → List String
  | [] => []
  | m :: ms => sprintEntries (sprintMap m) :: sprintMapSlice ms
end

/-! ## The Vault transit engine -/

/-- One request sent to Vault: the operation, the value and the key name. -/
inductive Call where
  | encrypt (value key : String)
  | decrypt (ciphertext key : String)
  deriving DecidableEq

/-- Modelled from the spec: the Secret Transit port (`vaultop.Vault`), a keyed
encrypt/decrypt oracle.  Each operation returns the result or an error, and may depend on the
requests made so far. -/
structure Vault where
  EncryptWithVault : List Call → String → String → Except String String
  DecryptWithVault : List Call → String → String → Except String String

/-- A compiled `*regexp.Regexp`, known by its `MatchString` method. -/
structure Regexp where
  MatchString : String → Bool

/-- The fields of `elasticop.Elastic` that the package reads.  `Vault` stands for the client
found in the context under `vaultop.VaultClientKey`. -/
structure Elastic where
  Project : String
  Encrypt : List Regexp
  StateIndex : String
  ResourceIndex : String
  Vault : Vault

/-! ## crypt.go -/

/-- The result of handling one child: the value assigned to its slot (if one was), the
log of Vault calls, and the error. -/
abbrev ChildStep := Option Value × List Call × Option String

/-- The encrypt branch, `for _, re := range compiledRegex { if re.MatchString(newPath) ... }`:
at the first pattern that matches, encrypt `fmt.Sprint(val)` under the project key, assign
`"tfb_" + encryptedVal` and leave the loop. -/
def encryptChild (e : Elastic) (val : Value) (newPath : String) :
    List Regexp → List Call → ChildStep
  | [], log => (none, log, none)
  | re :: rest, log =>
    if re.MatchString newPath then
      match e.Vault.EncryptWithVault log (Sprint val) e.Project with
      | .error err => (none, log ++ [.encrypt (Sprint val) e.Project], some err)
      | .ok encryptedVal =>
        (some (.string ("tfb_" ++ encryptedVal)),
          log ++ [.encrypt (Sprint val) e.Project], none)
    else encryptChild e val newPath rest log

/-- The decrypt branch: a string that begins with `tfb_vault:` is sent to Vault without its
`tfb_` and replaced by the answer. -/
def decryptChild (e : Elastic) (val : Value) (log : List Call) : ChildStep :=
  match val with
  | .string strVal =>
    if HasPrefix strVal "tfb_vault:" then
      match e.Vault.DecryptWithVault log (TrimPrefix strVal "tfb_") e.Project with
      | .error err => (none, log ++ [.decrypt (TrimPrefix strVal "tfb_") e.Project], some err)
      | .ok decryptedVal =>
        (some (.string decryptedVal),
          log ++ [.decrypt (TrimPrefix strVal "tfb_") e.Project], none)
    else (none, log, none)
  | _ => (none, log, none)

/-- The body of both loops up to the recursive call. -/
def childStep (e : Elastic) (compiledRegex : List Regexp) (encrypt : Bool) (val : Value)
    (newPath : String) (log : List Call) : ChildStep :=
  if encrypt then encryptChild e val newPath compiledRegex log else decryptChild e val log

/-- What a slot holds after its child was handled: the assigned value if there was an
assignment, else the child itself, which the recursive call has modified in place. -/
def slotAfter (assigned : Option Value) (walked : Value) : Value :=
  match assigned with
  | some r => r
  | none => walked

mutual
/-- The method `TraverseAndModify(node, compiledRegex, encrypt, currentPath)`.  The node is
modified in place, so the result is the node as it is when the method returns, whether it
returns an error or not; with it come the log of Vault calls and the returned error. -/
def TraverseAndModify (e : Elastic) (compiledRegex : List Regexp) (encrypt : Bool) :
    Value → String → List Call → Value × List Call × Option String
  | .map kvs, currentPath, log =>
    let r := traverseMap e compiledRegex encrypt currentPath kvs log
    (.map r.1, r.2.1, r.2.2)
  | .slice xs, currentPath, log =>
    let r := traverseSlice e compiledRegex encrypt currentPath 0 xs log
    (.slice r.1, r.2.1, r.2.2)
  | v, _, log => (v, log, none)
/-- The loop `for k, val := range v` over the entries not yet visited. -/
def traverseMap (e : Elastic) (compiledRegex : List Regexp) (encrypt : Bool)
    (currentPath : String) :
    List (String × Value) → List Call → List (String × Value) × List Call × Option String
  | [], log => ([], log, none)
  | (k, val) :: rest, log =>
    let newPath := currentPath ++ "." ++ k
    match childStep e compiledRegex encrypt val newPath log with
    | (_, log1, some err) => ((k, val) :: rest, log1, some err)
    | (assigned, log1, none) =>
      match TraverseAndModify e compiledRegex encrypt val newPath log1 with
      | (walked, log2, some err) => ((k, slotAfter assigned walked) :: rest, log2, some err)
      | (walked, log2, none) =>
        let r := traverseMap e compiledRegex encrypt currentPath rest log2
        ((k, slotAfter assigned walked) :: r.1, r.2.1, r.2.2)
/-- The loop `for i, val := range v` from index `i` on. -/
def traverseSlice (e : Elastic) (compiledRegex : List Regexp) (encrypt : Bool)
    (currentPath : String) :
    Nat → List Value → List Call → List Value × List Call × Option String
  | _, [], log => ([], log, none)
  | i, val :: rest, log =>
    let newPath := currentPath ++ "[" ++ toString i ++ "]"
    match childStep e compiledRegex encrypt val newPath log with
    | (_, log1, some err) => (val :: rest, log1, some err)
    | (assigned, log1, none) =>
      match TraverseAndModify e compiledRegex encrypt val newPath log1 with
      | (walked, log2, some err) => (slotAfter assigned walked :: rest, log2, some err)
      | (walked, log2, none) =>
        let r := traverseSlice e compiledRegex encrypt currentPath (i + 1) rest log2
        (slotAfter assigned walked :: r.1, r.2.1, r.2.2)
end

/-! ## Fields and their paths -/

/-- One step from a node to a child: an object key or an array index. -/
inductive Step where
  | key (k : String)
  | index (i : Nat)

/-- What a step appends to the path: `.` and the key, or the index in brackets. -/
def Step.text : Step → String
  | .key k => "." ++ k
  | .index i => "[" ++ toString i ++ "]"

/-- The path string of the node reached from a node with path `base` by the given steps. -/
def pathOf (base : String) : List Step → String
  | [] => base
  | s :: rest => pathOf (base ++ s.text) rest

/-- The child of a node at a step. -/
def Value.child : Value → Step → Option Value
  | .map kvs, .key k => mapIndex kvs k
  | .slice xs, .index i => xs[i]?
  | _, _ => none

/-- The node reached from `v` by the given steps. -/
def Value.at (v : Value) : List Step → Option Value
  | [] => some v
  | s :: rest =>
    match v.child s with
    | some c => c.at rest
    | none => none

/-- Does some pattern match the path. -/
def matchesAny (compiledRegex : List Regexp) (path : String) : Bool :=
  compiledRegex.any fun re => re.MatchString path

/-- Is the value a scalar: null, a boolean, a number or a string. -/
def Value.isScalar : Value → Bool
  | .nil | .bool _ | .float64 _ | .string _ => true
  | _ => false

/-! ## JSON encoding -/

mutual
/-- The tree that `json.Unmarshal` reads back from the text `json.Marshal` writes for a
value.  A `[]map[string]interface{}` is written as an array of objects, and as `null` when it
is the nil slice (the only empty slice of that type the package ever holds). -/
def Marshal : Value → Value
  | .nil => .nil
  | .bool b => .bool b
  | .float64 text => .float64 text
  | .string s => .string s
  | .slice xs => .slice (marshalSlice xs)
  | .map kvs => .map (marshalMap kvs)
  | .mapSlice [] => .nil
  | .mapSlice (m :: ms) => .slice (.map (marshalMap m) :: marshalMapSlice ms)
/-- The elements of an encoded array. -/
def marshalSlice : List Value → List Value
  | [] => []
  | x :: xs => Marshal x :: marshalSlice xs
/-- The members of an encoded object, `json.NewEncoder(&buf).Encode(m)` for a map `m`. -/
def marshalMap : List (String × Value) → List (String × Value)
  | [] => []
  | (k, v) :: rest => (k, Marshal v) :: marshalMap rest
/-- The elements of an encoded array of objects. -/
def marshalMapSlice : List (List (String × Value)) → List Value
  | [] => []
  | m :: ms => .map (marshalMap m) :: marshalMapSlice ms
end

/-! ## The Elasticsearch cluster -/

/-- A stored document: its index, its id (`none` when Elasticsearch generated one) and its
JSON body. -/
structure Doc where
  index : String
  id : Option String
  source : GoMap

/-- A request that goes wrong: either no response arrives and the client returns an error, or
the cluster answers with an error status. -/
inductive Fault where
  | transport (err : String)
  | rejected (StatusCode : Nat) (isError : 299 < StatusCode)

/-- Modelled from the spec: the Document Store port, as the Elasticsearch client
(`e.Client`) presents it.  `docs` holds every document in the order it was indexed;
`indices` names the indices that were created empty; `pageSize` is the number of hits a
search returns when the request has no `size` (10 in Elasticsearch); `faults` says, for each
of the coming requests in turn, whether it goes wrong.  A request that goes wrong changes
nothing but consumes its entry of `faults`. -/
structure Cluster where
  indices : List String
  docs : List Doc
  pageSize : Nat
  faults : List (Option Fault)

/-- An `*esapi.Response`: the status code and the decoded body. -/
structure Response where
  StatusCode : Nat
  Body : Value

/-- The method `res.IsError()`. -/
def Response.IsError (res : Response) : Bool := decide (299 < res.StatusCode)

/-- The answer of the client when the request went wrong. -/
def Fault.answer : Fault → Except String Response
  | .transport err => .error err
  | .rejected code _ => .ok ⟨code, .map [("error", .string "request failed")]⟩

/-- The cluster after one request was answered, whatever the answer. -/
def Cluster.next (c : Cluster) : Cluster := { c with faults := c.faults.tail }

/-- Does the index exist: created empty, or created by its first document. -/
def Cluster.hasIndex (c : Cluster) (index : String) : Bool :=
  c.indices.any (fun i => i = index) || c.docs.any (fun d => d.index = index)

/-- The request `e.Client.Index(index, body, WithRefresh("true"))`: store `body` as a new
document with a generated id. -/
def Cluster.Index (c : Cluster) (index : String) (body : GoMap) :
    Except String Response × Cluster :=
  match c.faults.head? with
  | some (some f) => (f.answer, c.next)
  | _ =>
    (.ok ⟨201, .map [("result", .string "created")]⟩,
      { c.next with docs := c.docs ++ [⟨index, none, body⟩] })

/-- The `timestamp` of a document when it is a string. -/
def timestampOf (source : GoMap) : Option String :=
  match mapIndex source "timestamp" with
  | some (.string s) => some s
  | _ => none

/-- Does `a` come strictly before `b` when documents are sorted by `timestamp`, latest first:
a document without a timestamp comes after all that have one. -/
def newer (a b : GoMap) : Bool :=
  match timestampOf a, timestampOf b with
  | some x, some y => strLt y x
  | some _, none => true
  | none, _ => false

/-- The first document of a list sorted by `timestamp`, latest first; among documents with
the same timestamp the one indexed first. -/
def newest : List Doc → Option Doc
  | [] => none
  | d :: rest =>
    match newest rest with
    | none => some d
    | some b => if newer b.source d.source then some b else some d

/-- The two search requests of the package. -/
inductive Query where
  /-- The body `{"size": 1, "sort": [{"timestamp": {"order": "desc"}}]}`. -/
  | latest
  /-- The body `{"query": {"match": {"timestamp": ts}}}`. -/
  | matchTimestamp (ts : String)

/-- The documents of an index that a query selects, in the order of the response. -/
def Cluster.select (c : Cluster) (index : String) : Query → List Doc
  | .latest => (newest (c.docs.filter fun d => d.index = index)).toList
  | .matchTimestamp ts =>
    ((c.docs.filter fun d => d.index = index).filter
      fun d => timestampOf d.source = some ts).take c.pageSize

/-- One entry of `hits.hits` in a search response. -/
def Doc.hit (d : Doc) : Value :=
  .map [("_index", .string d.index), ("_source", .map d.source)]

/-- The request `e.Client.Search(WithIndex(index), WithBody(query))`: status 404 when the
index does not exist, else status 200 and the selected documents under `hits.hits`. -/
def Cluster.Search (c : Cluster) (index : String) (q : Query) :
    Except String Response × Cluster :=
  match c.faults.head? with
  | some (some f) => (f.answer, c.next)
  | _ =>
    if c.hasIndex index then
      (.ok ⟨200, .map [("hits", .map [("hits", .slice ((c.select index q).map Doc.hit))])]⟩,
        c.next)
    else
      (.ok ⟨404, .map [("error", .string "index_not_found_exception")]⟩, c.next)

/-! ## store_state.go -/

/-- How a Go function ends: it returns, or it panics. -/
inductive Go (α : Type) where
  | ret (a : α)
  | panic (msg : String)

/-- The panic of a failed type assertion to `map[string]interface{}`. -/
def notMap : String :=
  "interface conversion: interface \x7b\x7d is not map[string]interface \x7b\x7d"

/-- The panic of a failed type assertion to `string`. -/
def notString : String := "interface conversion: interface \x7b\x7d is not string"

/-- The loop `for _, resource := range resources` of `StoreState`: stamp each resource with
the timestamp and index it; stop at the first resource that is not a map or whose request
fails. -/
def storeResources (e : Elastic) (currentTime : String) :
    List Value → Cluster → Option (Nat × Option String) × Cluster
  | [], c => (none, c)
  | .map resourceMap :: rest, c =>
    match c.Index e.ResourceIndex
        (marshalMap (mapAssign resourceMap "timestamp" (.string currentTime))) with
    | (.error err, c1) => (some (500, some ("error saving resource: " ++ err)), c1)
    | (.ok res, c1) =>
      if res.IsError then (some (500, some "error saving resource: %!s(<nil>)"), c1)
      else storeResources e currentTime rest c1
  | _ :: _, c =>
    (some (500, some "failed to type assert resource to map[string]interface\x7b\x7d"), c)

/-- The method `StoreState(updatedState)`.  `currentTime` is the reading of the clock,
`time.Now().UTC().Format(time.RFC3339)`, and `decoded` is what `json.Unmarshal` made of the
request body.  The result is the pair `(status, error)` together with the cluster and the log
of Vault calls afterwards.  Encoding a decoded JSON tree cannot fail, so the two error
returns after `Encode` have no counterpart. -/
def StoreState (e : Elastic) (currentTime : String) (decoded : Except String Value)
    (c : Cluster) (log : List Call) : Go (Nat × Option String) × Cluster × List Call :=
  match decoded with
  | .error err => (.ret (500, some ("failed to unmarshal updatedState: " ++ err)), c, log)
  | .ok stateData =>
    -- `e.TraverseAndModify(stateData, e.Encrypt, true)`: the returned error is not read
    let walked := TraverseAndModify e e.Encrypt true stateData "" log
    match walked.1 with
    | .map stateMap =>
      match mapIndex stateMap "resources" with
      | some (.slice resources) =>
        match storeResources e currentTime resources c with
        | (some failure, c1) => (.ret failure, c1, walked.2.1)
        | (none, c1) =>
          match c1.Index e.StateIndex
              (marshalMap (mapAssign (mapDelete stateMap "resources") "timestamp"
                (.string currentTime))) with
          | (.error err, c2) => (.ret (500, some ("error saving state: " ++ err)), c2, walked.2.1)
          | (.ok res, c2) =>
            if res.IsError then
              (.ret (500, some "error saving state: %!s(<nil>)"), c2, walked.2.1)
            else (.ret (200, none), c2, walked.2.1)
      | _ => (.ret (500, some "malformed state: missing resources"), c, walked.2.1)
    | _ =>
      (.panic notMap, c, walked.2.1)

/-! ## get_state.go -/

/-- The loop of `GetResources` over `hits.hits`: the `_source` of every hit. -/
def hitSources : List Value → Go (List GoMap)
  | [] => .ret []
  | .map hitMap :: rest =>
    match mapIndex hitMap "_source" with
    | some (.map source) =>
      match hitSources rest with
      | .ret sources => .ret (source :: sources)
      | .panic msg => .panic msg
    | _ => .panic notMap
  | _ :: _ => .panic notMap

/-- The method `GetResources(timestamp)`: the documents of the resource index whose timestamp
matches.  The status of the response is not looked at; a body without `hits.hits` gives the
nil slice, which is the empty list here. -/
def GetResources (e : Elastic) (timestamp : String) (c : Cluster) :
    Go (Except String (List GoMap)) × Cluster :=
  match c.Search e.ResourceIndex (.matchTimestamp timestamp) with
  | (.error err, c1) => (.ret (.error err), c1)
  | (.ok res, c1) =>
    match res.Body with
    | .map r =>
      match mapIndex r "hits" with
      | some (.map hits) =>
        match mapIndex hits "hits" with
        | some (.slice hitList) =>
          match hitSources hitList with
          | .ret sources => (.ret (.ok sources), c1)
          | .panic msg => (.panic msg, c1)
        | _ => (.ret (.ok []), c1)
      | _ => (.ret (.ok []), c1)
    | _ => (.ret (.error "json: cannot unmarshal into Go value of type map"), c1)

/-- The lines of `GetState` that read `source` and `timestamp` off the decoded response.
`none` is the nil map that `source` holds when there is no hit. -/
def firstHit (esResponse : GoMap) : Go (Option GoMap × String) :=
  match mapIndex esResponse "hits" with
  | some (.map hits) =>
    match mapIndex hits "hits" with
    | some (.slice (hit :: _)) =>
      match hit with
      | .map hitMap =>
        match mapIndex hitMap "_source" with
        | some (.map source) =>
          match mapIndex source "timestamp" with
          | some (.string timestamp) => .ret (some source, timestamp)
          | _ => .panic notString
        | _ => .panic notMap
      | _ => .panic notMap
    | _ => .ret (none, "")
  | _ => .ret (none, "")

/-- The method `GetState()`: the triple `(body, status, error)`, where the body is the JSON
value that `json.Marshal(source)` writes, together with the cluster and the log of Vault
calls afterwards. -/
def GetState (e : Elastic) (c : Cluster) (log : List Call) :
    Go (Option Value × Nat × Option String) × Cluster × List Call :=
  match c.Search e.StateIndex .latest with
  | (.error err, c1) => (.ret (none, 500, some ("error getting response: " ++ err)), c1, log)
  | (.ok res, c1) =>
    if res.IsError then (.ret (none, 404, some "state not found"), c1, log)
    else
      match res.Body with
      | .map esResponse =>
        match firstHit esResponse with
        | .panic msg => (.panic msg, c1, log)
        | .ret (source, timestamp) =>
          match GetResources e timestamp c1 with
          | (.panic msg, c2) => (.panic msg, c2, log)
          | (.ret (.error err), c2) =>
            (.ret (none, 500, some ("error fetching resources: " ++ err)), c2, log)
          | (.ret (.ok resources), c2) =>
            match source with
            | none => (.panic "assignment to entry in nil map", c2, log)
            | some source =>
              -- `e.TraverseAndModify(source, e.Encrypt, false)`: the returned error is not read
              let walked := TraverseAndModify e e.Encrypt false
                (.map (mapAssign source "resources" (.mapSlice resources))) "" log
              (.ret (some (Marshal walked.1), 200, none), c2, walked.2.1)
      | _ => (.ret (none, 500, some "error parsing Elasticsearch response"), c1, log)

/-! ## Documents with an id -/

/-- The `op_type` of an Elasticsearch index request.  With `index` the request creates the
document or replaces the one that has the id; with `create` it fails with status 409 when the
id exists.  A request that names an id and no `op_type` is an `index` request. -/
inductive OpType where
  | index
  | create

/-- Is there a document with this id in the index. -/
def Cluster.hasDoc (c : Cluster) (index id : String) : Bool :=
  c.docs.any fun d => d.index = index ∧ d.id = some id

/-- The request `e.Client.Index(index, body, WithDocumentID(id), WithRefresh("true"))` with the
given `op_type`: status 201 when the document is created, status 200 when an `index` request
replaces the document that has the id, status 409 when a `create` request finds the id.  For
the empty id the client names no document (it sends `POST /<index>/_doc`), so the request is
the one of `Cluster.Index`: a new document with a generated id. -/
def Cluster.IndexWithID (c : Cluster) (index id : String) (op : OpType) (body : GoMap) :
    Except String Response × Cluster :=
  match c.faults.head? with
  | some (some f) => (f.answer, c.next)
  | _ =>
    if id = "" then
      (.ok ⟨201, .map [("result", .string "created")]⟩,
        { c.next with docs := c.docs ++ [⟨index, none, body⟩] })
    else if c.hasDoc index id then
      match op with
      | .create =>
        (.ok ⟨409, .map [("error", .string "version_conflict_engine_exception")]⟩, c.next)
      | .index =>
        (.ok ⟨200, .map [("result", .string "updated")]⟩,
          { c.next with docs := c.docs.map fun d =>
              if d.index = index ∧ d.id = some id then ⟨index, some id, body⟩ else d })
    else
      (.ok ⟨201, .map [("result", .string "created")]⟩,
        { c.next with docs := c.docs ++ [⟨index, some id, body⟩] })

/-- The request `e.Client.Delete(index, id, WithRefresh("true"))`: status 200 when the document
is deleted, status 404 when there is none. -/
def Cluster.Delete (c : Cluster) (index id : String) : Except String Response × Cluster :=
  match c.faults.head? with
  | some (some f) => (f.answer, c.next)
  | _ =>
    if c.hasDoc index id then
      (.ok ⟨200, .map [("result", .string "deleted")]⟩,
        { c.next with docs := c.docs.filter fun d => ¬ (d.index = index ∧ d.id = some id) })
    else
      (.ok ⟨404, .map [("result", .string "not_found")]⟩, c.next)

/-- The pair `(res, err)` that a client call returns: the response and no error, or no
response (a nil pointer) and the error. -/
def clientResult : Except String Response → Option Response × Option String
  | .ok res => (some res, none)
  | .error err => (none, some err)

/-! ## dlock.go -/

/-- The constant `lockIndex`. -/
def lockIndex : String := "terraform-locks"

/-- The JSON encoding of `ESDistributedLock{Project: project, LockedBy: remoteId}`; the field
`Version` has its zero value. -/
def lockBody (project remoteId : String) : GoMap :=
  [("project", .string project), ("lockedBy", .string remoteId), ("version", .float64 "0")]

/-- The panic of `res.Body` for a nil `res`. -/
def nilResponse : String := "invalid memory address or nil pointer dereference"

/-- The lines of `AcquireLock` after the call of `e.Client.Index`, for the pair `(res, err)` the
call returned.  The statement `defer res.Body.Close()` reads `res.Body` at once. -/
def acquireAfter (res : Option Response) (err : Option String) : Go (Bool × Option String) :=
  match res with
  | none => .panic nilResponse
  | some res =>
    match err with
    | some err =>
      if res.StatusCode = 409 then .ret (false, none) else .ret (false, some err)
    | none =>
      if res.StatusCode = 201 then .ret (true, none) else .ret (false, none)

/-- The method `AcquireLock(project, remoteId)`, with the cluster afterwards.  The request
names the document id and no `op_type`. -/
def AcquireLock (project remoteId : String) (c : Cluster) :
    Go (Bool × Option String) × Cluster :=
  let answer := c.IndexWithID lockIndex project .index (lockBody project remoteId)
  (acquireAfter (clientResult answer.1).1 (clientResult answer.1).2, answer.2)

/-- The lines of `ReleaseLock` after the call of `e.Client.Delete`, for the pair `(res, err)`
the call returned. -/
def releaseAfter (res : Option Response) (err : Option String) : Go (Bool × Option String) :=
  match res with
  | none => .panic nilResponse
  | some res =>
    match err with
    | some err => .ret (false, some err)
    | none =>
      if res.StatusCode = 200 then .ret (true, none)
      else if res.StatusCode = 404 then .ret (false, none)
      else .ret (false, some ("unexpected status code: " ++ toString res.StatusCode))

/-- The method `ReleaseLock(project)`, with the cluster afterwards. -/
def ReleaseLock (project : String) (c : Cluster) : Go (Bool × Option String) × Cluster :=
  let answer := c.Delete lockIndex project
  (releaseAfter (clientResult answer.1).1 (clientResult answer.1).2, answer.2)

/-! ## Predicates used in the statements -/

mutual
/-- No pattern matches the path of any member or element below a node with path `base`. -/
def quiet (compiledRegex : List Regexp) : Value → String → Bool
  | .map kvs, base => quietMap compiledRegex base kvs
  | .slice xs, base => quietSlice compiledRegex base 0 xs
  | _, _ => true
/-- No pattern matches the path of a listed member or of anything below it. -/
def quietMap (compiledRegex : List Regexp) (base : String) : List (String × Value) → Bool
  | [] => true
  | (k, v) :: rest =>
    !matchesAny compiledRegex (base ++ "." ++ k) && quiet compiledRegex v (base ++ "." ++ k)
      && quietMap compiledRegex base rest
/-- No pattern matches the path of a listed element, the first of which has index `i`, or of
anything below it. -/
def quietSlice (compiledRegex : List Regexp) (base : String) :
    Nat → List Value → Bool
  | _, [] => true
  | i, v :: rest =>
    !matchesAny compiledRegex (base ++ "[" ++ toString i ++ "]")
      && quiet compiledRegex v (base ++ "[" ++ toString i ++ "]")
      && quietSlice compiledRegex base (i + 1) rest
end

/-- Is the string marked as encrypted: does it begin with `tfb_vault:`. -/
def isMarked (v : Value) : Bool :=
  match v with
  | .string s => HasPrefix s "tfb_vault:"
  | _ => false

mutual
/-- The marked strings among the members and elements below a node, in the order of the
walk.  In a tree decoded from JSON these are all the strings below the node that begin with
`tfb_vault:`. -/
def marked : Value → List String
  | .map kvs => markedMap kvs
  | .slice xs => markedSlice xs
  | _ => []
/-- The marked strings among the listed members and below them. -/
def markedMap : List (String × Value) → List String
  | [] => []
  | (_, .string s) :: rest =>
    (if HasPrefix s "tfb_vault:" then [s] else []) ++ markedMap rest
  | (_, v) :: rest => marked v ++ markedMap rest
/-- The marked strings among the listed elements and below them. -/
def markedSlice : List Value → List String
  | [] => []
  | .string s :: rest =>
    (if HasPrefix s "tfb_vault:" then [s] else []) ++ markedSlice rest
  | v :: rest => marked v ++ markedSlice rest
end

mutual
/-- Is the value a tree that `json.Unmarshal` produces: null, booleans, numbers, strings,
`[]interface{}` and `map[string]interface{}` only. -/
def Value.isJSON : Value → Bool
  | .slice xs => isJSONSlice xs
  | .map kvs => isJSONMap kvs
  | .mapSlice _ => false
  | _ => true
/-- Are all the elements trees decoded from JSON. -/
def isJSONSlice : List Value → Bool
  | [] => true
  | x :: xs => x.isJSON && isJSONSlice xs
/-- Are all the member values trees decoded from JSON. -/
def isJSONMap : List (String × Value) → Bool
  | [] => true
  | (_, v) :: rest => v.isJSON && isJSONMap rest
end


mutual
/-- Every string below a node, as a member of an object or an element of an array, that begins
with `tfb_vault:`, in document order. -/
def allMarked : Value → List String
  | .map kvs => allMarkedMap kvs
  | .slice xs => allMarkedSlice xs
  | .mapSlice ms => allMarkedMaps ms
  | _ => []
/-- The marked strings among the listed members and below them. -/
def allMarkedMap : List (String × Value) → List String
  | [] => []
  | (_, .string s) :: rest =>
    (if HasPrefix s "tfb_vault:" then [s] else []) ++ allMarkedMap rest
  | (_, v) :: rest => allMarked v ++ allMarkedMap rest
/-- The marked strings among the listed elements and below them. -/
def allMarkedSlice : List Value → List String
  | [] => []
  | .string s :: rest =>
    (if HasPrefix s "tfb_vault:" then [s] else []) ++ allMarkedSlice rest
  | v :: rest => allMarked v ++ allMarkedSlice rest
/-- The marked strings in the listed objects. -/
def allMarkedMaps : List (List (String × Value)) → List String
  | [] => []
  | m :: ms => allMarkedMap m ++ allMarkedMaps ms
end


/-- What goes wrong at the `i`-th of the coming requests, if anything. -/
def Cluster.faultAt (c : Cluster) (i : Nat) : Option Fault := (c.faults[i]?).join

/-- The cluster after it accepted the listed documents, one request each. -/
def Cluster.wrote (c : Cluster) (ds : List Doc) : Cluster :=
  { c with docs := c.docs ++ ds, faults := c.faults.drop ds.length }

/-- The document `StoreState` writes for a resource. -/
def resourceDoc (e : Elastic) (currentTime : String) (resourceMap : GoMap) : Doc :=
  ⟨e.ResourceIndex, none, marshalMap (mapAssign resourceMap "timestamp" (.string currentTime))⟩

/-- The document `StoreState` writes for the state without its resources. -/
def snapshotDoc (e : Elastic) (currentTime : String) (stateMap : GoMap) : Doc :=
  ⟨e.StateIndex, none,
    marshalMap (mapAssign (mapDelete stateMap "resources") "timestamp" (.string currentTime))⟩

/-- A sequence of `StoreState` calls, each with its clock reading and its decoded body, all of
which return `(200, nil)`; `none` when one of them does not. -/
def storeAll (e : Elastic) : List (String × Value) → Cluster → List Call →
    Option (Cluster × List Call)
  | [], c, log => some (c, log)
  | (currentTime, body) :: rest, c, log =>
    match StoreState e currentTime (.ok body) c log with
    | (.ret (200, none), c1, log1) => storeAll e rest c1 log1
    | _ => none

/-- The JSON value `json.Marshal` writes for a `[]map[string]interface{}` of JSON documents:
`null` for the nil slice, else the array of the documents. -/
def jsonDocs : List GoMap → Value
  | [] => .nil
  | m :: ms => .slice ((m :: ms).map Value.map)

mutual
/-- Every node below a node, each with the keys and indices that lead to it from that node,
in the order of the walk: a member or element comes before what is below it, and before the
members or elements after it. -/
def nodesBelow : Value → List (List Step × Value)
  | .map kvs => nodesBelowMap kvs
  | .slice xs => nodesBelowSlice 0 xs
  | _ => []
/-- The listed members and the nodes below them. -/
def nodesBelowMap : List (String × Value) → List (List Step × Value)
  | [] => []
  | (k, v) :: rest =>
    ([.key k], v) :: ((nodesBelow v).map fun n => (.key k :: n.1, n.2)) ++ nodesBelowMap rest
/-- The listed elements, the first of which has index `i`, and the nodes below them. -/
def nodesBelowSlice : Nat → List Value → List (List Step × Value)
  | _, [] => []
  | i, v :: rest =>
    ([.index i], v) :: ((nodesBelow v).map fun n => (.index i :: n.1, n.2))
      ++ nodesBelowSlice (i + 1) rest
end

/-- One encrypt request, for the text of the node under the project key, for each listed node
whose path, built from `base` by concatenation, is matched by some pattern. -/
def encryptCalls (e : Elastic) (compiledRegex : List Regexp) (base : String)
    (nodes : List (List Step × Value)) : List Call :=
  (nodes.filter fun n => matchesAny compiledRegex (pathOf base n.1)).map
    fun n => Call.encrypt (Sprint n.2) e.Project

/-! ## Sample configurations and documents -/

/-- A pattern that matches one path and nothing else, like `^\.secret$`. -/
def exactly (path : String) : Regexp := ⟨fun p => decide (p = path)⟩

/-- A Vault that refuses every request. -/
def sealedVault : Vault :=
  ⟨fun _ _ _ => .error "Vault is sealed", fun _ _ _ => .error "Vault is sealed"⟩

/-- A Vault whose ciphertext is `vault:` followed by the plaintext. -/
def echoVault : Vault :=
  ⟨fun _ v _ => .ok ("vault:" ++ v), fun _ ct _ => .ok (TrimPrefix ct "vault:")⟩

/-- The backend of project `demo` with the default index names. -/
def demo (patterns : List Regexp) (vault : Vault) : Elastic :=
  ⟨"demo", patterns, "terraform-state", "terraform-resources", vault⟩

/-- A cluster without indices and without faults. -/
def emptyCluster : Cluster := ⟨[], [], 10, []⟩

/-- The state `{"secret": v, "resources": []}`. -/
def secretState (v : String) : Value :=
  .map [("secret", .string v), ("resources", .slice [])]

/-- The tree `{"port": 8080}`. -/
def portTree : Value := .map [("port", .float64 "8080")]

/-- The tree `{"db": {"password": "pw", "user": "admin"}}`. -/
def dbTree : Value :=
  .map [("db", .map [("password", .string "pw"), ("user", .string "admin")])]

/-- The tree `{"token": "tfb_vault:abc", "note": "tfb_plain", "tags": ["tfb_vault:t0", 1]}`. -/
def markedTree : Value :=
  .map [("token", .string "tfb_vault:abc"), ("note", .string "tfb_plain"),
    ("tags", .slice [.string "tfb_vault:t0", .float64 "1"])]

/-- The state `{"serial": 1, "timestamp": "never", "resources": [{"id": "a"}]}`. -/
def stampedState : Value :=
  .map [("serial", .float64 "1"), ("timestamp", .string "never"),
    ("resources", .slice [.map [("id", .string "a")]])]

/-- The state `{"serial": 2, "resources": [{"id": "a"}, 7]}`, whose second resource is not an
object. -/
def brokenState : Value :=
  .map [("serial", .float64 "2"), ("resources", .slice [.map [("id", .string "a")], .float64 "7"])]

/-- The state `{"serial": 1, "resources": []}`. -/
def emptyResourcesState : Value :=
  .map [("serial", .float64 "1"), ("resources", .slice [])]

/-- The state `{"serial": n, "resources": [{"id": id}]}`. -/
def oneResourceState (serial id : String) : Value :=
  .map [("serial", .float64 serial), ("resources", .slice [.map [("id", .string id)]])]

/-- The state `{"serial": 3, "resources": [{"id": "r01"}, ..., {"id": "r11"}]}`, with eleven
resources. -/
def elevenResourcesState : Value :=
  .map [("serial", .float64 "3"), ("resources", .slice [
    .map [("id", .string "r01")], .map [("id", .string "r02")], .map [("id", .string "r03")],
    .map [("id", .string "r04")], .map [("id", .string "r05")], .map [("id", .string "r06")],
    .map [("id", .string "r07")], .map [("id", .string "r08")], .map [("id", .string "r09")],
    .map [("id", .string "r10")], .map [("id", .string "r11")]])]

/-- The resource documents `{"id": i, "timestamp": t}` for the listed ids, as a JSON array. -/
def stampedResources (ids : List String) (t : String) : Value :=
  .slice (ids.map fun i => .map [("id", .string i), ("timestamp", .string t)])

/-- A cluster whose state index exists and holds no document. -/
def emptyStateIndex : Cluster := ⟨["terraform-state"], [], 10, []⟩

/-- A cluster whose latest snapshot is `{"secret": "tfb_vault:abc", "timestamp": ...}`, with
one resource `{"password": "tfb_vault:xyz", "timestamp": ...}`. -/
def encryptedCluster : Cluster :=
  ⟨[], [⟨"terraform-resources", none,
      [("password", .string "tfb_vault:xyz"), ("timestamp", .string "2024-05-01T10:00:00Z")]⟩,
    ⟨"terraform-state", none,
      [("secret", .string "tfb_vault:abc"), ("timestamp", .string "2024-05-01T10:00:00Z")]⟩],
    10, []⟩

/-- The tree `GetState` hands to the decrypt walk for `encryptedCluster`: the latest snapshot
with the joined resources, a `[]map[string]interface{}`, under `resources`. -/
def joinedTree : Value :=
  .map [("secret", .string "tfb_vault:abc"), ("timestamp", .string "2024-05-01T10:00:00Z"),
    ("resources", .mapSlice [[("password", .string "tfb_vault:xyz"),
      ("timestamp", .string "2024-05-01T10:00:00Z")]])]

/-- A cluster without documents whose next request is answered with status 500. -/
def failingCluster : Cluster := ⟨[], [], 10, [some (.rejected 500 (by decide))]⟩

/-- A cluster without documents whose next request gets no answer. -/
def unreachableCluster : Cluster := ⟨[], [], 10, [some (.transport "connection refused")]⟩

/-- A pattern that matches every path that contains the given text, like the unanchored
pattern `secret`. -/
def containing (text : String) : Regexp :=
  ⟨fun p => (List.range (p.data.length + 1)).any fun i => text.data.isPrefixOf (p.data.drop i)⟩

/-- The tree `{"tags": ["a", "b", "c"], "a": {"b": 1}, "x": true}`. -/
def sampleTree : Value :=
  .map [("tags", .slice [.string "a", .string "b", .string "c"]),
    ("a", .map [("b", .float64 "1")]), ("x", .bool true)]

/-! ## Strings -/

theorem HasPrefix_append (pre rest : String) : HasPrefix (pre ++ rest) pre = true := by
  simp [HasPrefix, String.data_append]

theorem TrimPrefix_append (pre rest : String) : TrimPrefix (pre ++ rest) pre = rest := by
  simp [TrimPrefix, HasPrefix_append, String.data_append]

theorem HasPrefix_tfb_vault (c : String) (h : HasPrefix c "vault:" = true) :
    HasPrefix ("tfb_" ++ c) "tfb_vault:" = true := by
  simp only [HasPrefix, String.data_append] at *
  change (['t', 'f', 'b', '_'] ++ ['v', 'a', 'u', 'l', 't', ':']).isPrefixOf
    (['t', 'f', 'b', '_'] ++ c.data) = true
  rw [List.isPrefixOf_iff_prefix] at *
  exact (List.prefix_append_right_inj _).mpr h

theorem HasPrefix_tfb_of_marked (s : String) (h : HasPrefix s "tfb_vault:" = true) :
    HasPrefix s "tfb_" = true := by
  simp only [HasPrefix] at *
  change (['t', 'f', 'b', '_'] ++ ['v', 'a', 'u', 'l', 't', ':']).isPrefixOf s.data = true at h
  rw [List.isPrefixOf_iff_prefix] at *
  exact (List.prefix_append _ _).trans h

theorem TrimPrefix_of_marked (s : String) (h : HasPrefix s "tfb_vault:" = true) :
    TrimPrefix s "tfb_" = String.mk (s.data.drop 4) := by
  simp [TrimPrefix, HasPrefix_tfb_of_marked s h]

/-! ## The walk: one child -/

theorem encryptChild_noMatch (e : Elastic) (val : Value) (newPath : String)
    (res : List Regexp) (log : List Call) (h : matchesAny res newPath = false) :
    encryptChild e val newPath res log = (none, log, none) := by
  induction res with
  | nil => rfl
  | cons re rest ih =>
    simp only [matchesAny, List.any_cons, Bool.or_eq_false_iff] at h
    simp only [encryptChild, h.1]
    exact ih h.2

theorem encryptChild_match (e : Elastic) (val : Value) (newPath : String)
    (res : List Regexp) (log : List Call) (h : matchesAny res newPath = true) :
    encryptChild e val newPath res log =
      match e.Vault.EncryptWithVault log (Sprint val) e.Project with
      | .error err => (none, log ++ [.encrypt (Sprint val) e.Project], some err)
      | .ok encryptedVal =>
        (some (.string ("tfb_" ++ encryptedVal)), log ++ [.encrypt (Sprint val) e.Project], none) := by
  induction res with
  | nil => simp [matchesAny] at h
  | cons re rest ih =>
    by_cases hre : re.MatchString newPath = true
    · simp only [encryptChild, hre, if_true]
    · simp only [matchesAny, List.any_cons, Bool.or_eq_true] at h
      have hrest : matchesAny rest newPath = true := by
        rcases h with h | h
        · exact absurd h hre
        · exact h
      simp only [encryptChild, hre]
      exact ih hrest

theorem decryptChild_unmarked (e : Elastic) (val : Value) (log : List Call)
    (h : isMarked val = false) : decryptChild e val log = (none, log, none) := by
  cases val <;> simp_all [decryptChild, isMarked]

theorem decryptChild_marked (e : Elastic) (s : String) (log : List Call)
    (h : HasPrefix s "tfb_vault:" = true) :
    decryptChild e (.string s) log =
      match e.Vault.DecryptWithVault log (TrimPrefix s "tfb_") e.Project with
      | .error err => (none, log ++ [.decrypt (TrimPrefix s "tfb_") e.Project], some err)
      | .ok decryptedVal =>
        (some (.string decryptedVal), log ++ [.decrypt (TrimPrefix s "tfb_") e.Project], none) := by
  simp [decryptChild, h]

/-! ## The walk: the slot of a member or element -/

theorem traverseMap_slot (e : Elastic) (res : List Regexp) (enc : Bool) (path k : String)
    (c : Value) : ∀ (kvs : GoMap) (log : List Call), mapIndex kvs k = some c →
      (mapIndex (traverseMap e res enc path kvs log).1 k = some c ∧
          (traverseMap e res enc path kvs log).2.2 ≠ none) ∨
      ∃ log1 assigned log2,
        childStep e res enc c (path ++ "." ++ k) log1 = (assigned, log2, none) ∧
        mapIndex (traverseMap e res enc path kvs log).1 k =
          some (slotAfter assigned (TraverseAndModify e res enc c (path ++ "." ++ k) log2).1) ∧
        ((traverseMap e res enc path kvs log).2.2 = none →
          (TraverseAndModify e res enc c (path ++ "." ++ k) log2).2.2 = none) := by
  intro kvs
  induction kvs with
  | nil => intro log h; simp [mapIndex] at h
  | cons kv rest ih =>
    obtain ⟨k', v'⟩ := kv
    intro log h
    rcases hcs : childStep e res enc v' (path ++ "." ++ k') log with ⟨a, l1, _ | err⟩
    · rcases ht : TraverseAndModify e res enc v' (path ++ "." ++ k') l1 with ⟨w, l2, _ | err⟩
      · by_cases hk : k' = k
        · subst hk
          simp only [mapIndex, if_true, Option.some.injEq] at h
          subst h
          right
          refine ⟨log, a, l1, hcs, ?_, ?_⟩
          · simp [traverseMap, hcs, ht, mapIndex]
          · intro _; simp [ht]
        · simp only [mapIndex, hk, if_false] at h
          rcases ih l2 h with hl | ⟨log1, a', log2, h1, h2, h3⟩
          · left
            simpa [traverseMap, hcs, ht, mapIndex, hk] using hl
          · right
            refine ⟨log1, a', log2, h1, ?_, ?_⟩
            · simpa [traverseMap, hcs, ht, mapIndex, hk] using h2
            · simpa [traverseMap, hcs, ht] using h3
      · by_cases hk : k' = k
        · subst hk
          simp only [mapIndex, if_true, Option.some.injEq] at h
          subst h
          right
          refine ⟨log, a, l1, hcs, ?_, ?_⟩
          · simp [traverseMap, hcs, ht, mapIndex]
          · simp [traverseMap, hcs, ht]
        · simp only [mapIndex, hk, if_false] at h
          left
          simp [traverseMap, hcs, ht, mapIndex, hk, h]
    · left
      simp [traverseMap, hcs, h]

theorem traverseSlice_slot (e : Elastic) (res : List Regexp) (enc : Bool) (path : String)
    (c : Value) : ∀ (xs : List Value) (i j : Nat) (log : List Call), xs[j]? = some c →
      ((traverseSlice e res enc path i xs log).1[j]? = some c ∧
          (traverseSlice e res enc path i xs log).2.2 ≠ none) ∨
      ∃ log1 assigned log2,
        childStep e res enc c (path ++ "[" ++ toString (i + j) ++ "]") log1
          = (assigned, log2, none) ∧
        (traverseSlice e res enc path i xs log).1[j]? =
          some (slotAfter assigned
            (TraverseAndModify e res enc c (path ++ "[" ++ toString (i + j) ++ "]") log2).1) ∧
        ((traverseSlice e res enc path i xs log).2.2 = none →
          (TraverseAndModify e res enc c (path ++ "[" ++ toString (i + j) ++ "]") log2).2.2
            = none) := by
  intro xs
  induction xs with
  | nil => intro i j log h; simp at h
  | cons v' rest ih =>
    intro i j log h
    rcases hcs : childStep e res enc v' (path ++ "[" ++ toString i ++ "]") log with ⟨a, l1, _ | err⟩
    · rcases ht : TraverseAndModify e res enc v' (path ++ "[" ++ toString i ++ "]") l1
        with ⟨w, l2, _ | err⟩
      · cases j with
        | zero =>
          simp only [List.getElem?_cons_zero, Option.some.injEq] at h
          subst h
          right
          refine ⟨log, a, l1, by simpa using hcs, ?_, ?_⟩
          · simp [traverseSlice, hcs, ht]
          · intro _; simp [ht]
        | succ j' =>
          simp only [List.getElem?_cons_succ] at h
          have hij : i + (j' + 1) = i + 1 + j' := by omega
          rw [hij]
          rcases ih (i + 1) j' l2 h with hl | ⟨log1, a', log2, h1, h2, h3⟩
          · left
            simpa [traverseSlice, hcs, ht] using hl
          · right
            refine ⟨log1, a', log2, h1, ?_, ?_⟩
            · simpa [traverseSlice, hcs, ht] using h2
            · simpa [traverseSlice, hcs, ht] using h3
      · cases j with
        | zero =>
          simp only [List.getElem?_cons_zero, Option.some.injEq] at h
          subst h
          right
          refine ⟨log, a, l1, by simpa using hcs, ?_, ?_⟩
          · simp [traverseSlice, hcs, ht]
          · simp [traverseSlice, hcs, ht]
        | succ j' =>
          simp only [List.getElem?_cons_succ] at h
          left
          simp [traverseSlice, hcs, ht, h]
    · left
      simp [traverseSlice, hcs, h]

/-! ## Paths -/

theorem append_key (base k : String) : base ++ (Step.key k).text = base ++ "." ++ k := by
  simp [Step.text, String.append_assoc]

theorem append_index (base : String) (i : Nat) :
    base ++ (Step.index i).text = base ++ "[" ++ toString i ++ "]" := by
  simp [Step.text, String.append_assoc]

theorem isMarked_of_child (c : Value) (s : Step) (rest : List Step) (y : Value)
    (h : c.at (s :: rest) = some y) : isMarked c = false := by
  cases c <;> simp_all [Value.at, Value.child, isMarked]

/-- The child of a node at a step, with the node it must be. -/
theorem child_cases (t : Value) (s : Step) (c : Value) (h : t.child s = some c) :
    (∃ kvs k, t = .map kvs ∧ s = .key k ∧ mapIndex kvs k = some c) ∨
    (∃ xs i, t = .slice xs ∧ s = .index i ∧ xs[i]? = some c) := by
  cases t <;> cases s <;> simp_all [Value.child]

theorem at_cons (t : Value) (s : Step) (rest : List Step) (x : Value)
    (h : t.at (s :: rest) = some x) : ∃ c, t.child s = some c ∧ c.at rest = some x := by
  simp only [Value.at] at h
  cases hc : t.child s with
  | none => simp [hc] at h
  | some c => exact ⟨c, rfl, by simpa [hc] using h⟩

/-- The slot of the child at a step after the walk of its parent. -/
theorem walk_child (e : Elastic) (res : List Regexp) (enc : Bool) (t : Value) (base : String)
    (log : List Call) (s : Step) (c : Value) (h : t.child s = some c) :
    ((TraverseAndModify e res enc t base log).1.child s = some c ∧
        (TraverseAndModify e res enc t base log).2.2 ≠ none) ∨
    ∃ log1 assigned log2,
      childStep e res enc c (base ++ s.text) log1 = (assigned, log2, none) ∧
      (TraverseAndModify e res enc t base log).1.child s =
        some (slotAfter assigned (TraverseAndModify e res enc c (base ++ s.text) log2).1) ∧
      ((TraverseAndModify e res enc t base log).2.2 = none →
        (TraverseAndModify e res enc c (base ++ s.text) log2).2.2 = none) := by
  rcases child_cases t s c h with ⟨kvs, k, rfl, rfl, hk⟩ | ⟨xs, i, rfl, rfl, hi⟩
  · rw [append_key]
    simpa [TraverseAndModify, Value.child] using traverseMap_slot e res enc base k c kvs log hk
  · rw [append_index]
    simpa [TraverseAndModify, Value.child] using
      traverseSlice_slot e res enc base c xs 0 i log hi

/-! ## The walk leaves alone what it has no reason to touch -/

mutual
theorem TraverseAndModify_quiet (e : Elastic) (res : List Regexp) :
    ∀ (v : Value) (base : String) (log : List Call), quiet res v base = true →
      TraverseAndModify e res true v base log = (v, log, none)
  | .map kvs, base, log, h => by
    simp only [quiet] at h
    simp [TraverseAndModify, traverseMap_quiet e res kvs base log h]
  | .slice xs, base, log, h => by
    simp only [quiet] at h
    simp [TraverseAndModify, traverseSlice_quiet e res xs base 0 log h]
  | .nil, _, _, _ => rfl
  | .bool _, _, _, _ => rfl
  | .float64 _, _, _, _ => rfl
  | .string _, _, _, _ => rfl
  | .mapSlice _, _, _, _ => rfl
theorem traverseMap_quiet (e : Elastic) (res : List Regexp) :
    ∀ (kvs : List (String × Value)) (base : String) (log : List Call),
      quietMap res base kvs = true → traverseMap e res true base kvs log = (kvs, log, none)
  | [], _, _, _ => rfl
  | (k, v) :: rest, base, log, h => by
    simp only [quietMap, Bool.and_eq_true, Bool.not_eq_true'] at h
    obtain ⟨⟨h1, h2⟩, h3⟩ := h
    simp [traverseMap, childStep, encryptChild_noMatch e v _ res log h1,
      TraverseAndModify_quiet e res v _ log h2, traverseMap_quiet e res rest base log h3,
      slotAfter]
theorem traverseSlice_quiet (e : Elastic) (res : List Regexp) :
    ∀ (xs : List Value) (base : String) (i : Nat) (log : List Call),
      quietSlice res base i xs = true → traverseSlice e res true base i xs log = (xs, log, none)
  | [], _, _, _, _ => rfl
  | v :: rest, base, i, log, h => by
    simp only [quietSlice, Bool.and_eq_true, Bool.not_eq_true'] at h
    obtain ⟨⟨h1, h2⟩, h3⟩ := h
    simp [traverseSlice, childStep, encryptChild_noMatch e v _ res log h1,
      TraverseAndModify_quiet e res v _ log h2, traverseSlice_quiet e res rest base (i + 1) log h3,
      slotAfter]
end

/-- Encrypt mode: a field none of whose ancestors, descendants or own path is matched keeps
its value, whether the walk ends with an error or not. -/
theorem walk_keeps_unmatched (e : Elastic) (res : List Regexp) (x : Value) :
    ∀ (p : List Step) (t : Value) (base : String) (log : List Call),
      t.at p = some x →
      (∀ q, q <+: p → q ≠ [] → matchesAny res (pathOf base q) = false) →
      quiet res x (pathOf base p) = true →
      (TraverseAndModify e res true t base log).1.at p = some x := by
  intro p
  induction p with
  | nil =>
    intro t base log h _ hq
    simp only [Value.at, Option.some.injEq] at h
    subst h
    simp [TraverseAndModify_quiet e res t base log hq, Value.at]
  | cons s rest ih =>
    intro t base log h hpre hq
    obtain ⟨c, hc, hx⟩ := at_cons t s rest x h
    have hs : matchesAny res (base ++ s.text) = false :=
      hpre [s] (by simp) (by simp)
    rcases walk_child e res true t base log s c hc with ⟨h1, _⟩ | ⟨log1, a, log2, h1, h2, _⟩
    · simp [Value.at, h1, hx]
    · simp only [childStep, if_true, encryptChild_noMatch e c _ res log1 hs] at h1
      simp only [Prod.mk.injEq] at h1
      obtain ⟨ha, _, _⟩ := h1
      subst ha
      simp only [Value.at, h2, slotAfter]
      apply ih c (base ++ s.text) log2 hx
      · intro q hqp hne
        exact hpre (s :: q) (by simpa using hqp) (by simp)
      · exact hq

theorem at_key (kvs : GoMap) (k : String) : (Value.map kvs).at [.key k] = mapIndex kvs k := by
  simp only [Value.at, Value.child]
  cases mapIndex kvs k <;> rfl

/-! ## Encrypt mode: a matched field -/

/-- Encrypt mode: after a walk that returns no error, a field whose path is matched while no
ancestor's is holds `tfb_` followed by an answer of Vault for the text of its value. -/
theorem encrypt_at_matched (e : Elastic) (res : List Regexp) (x : Value) :
    ∀ (p : List Step) (t : Value) (base : String) (log : List Call),
      p ≠ [] → t.at p = some x →
      matchesAny res (pathOf base p) = true →
      (∀ q, q <+: p → q ≠ [] → q ≠ p → matchesAny res (pathOf base q) = false) →
      (TraverseAndModify e res true t base log).2.2 = none →
      ∃ h c, e.Vault.EncryptWithVault h (Sprint x) e.Project = .ok c ∧
        (TraverseAndModify e res true t base log).1.at p = some (.string ("tfb_" ++ c)) := by
  intro p
  induction p with
  | nil => intro t base log hne; exact absurd rfl hne
  | cons s rest ih =>
    intro t base log _ h hm hpre hok
    obtain ⟨c, hc, hx⟩ := at_cons t s rest x h
    rcases walk_child e res true t base log s c hc with ⟨_, h2⟩ | ⟨log1, a, log2, h1, h2, h3⟩
    · exact absurd hok h2
    · cases rest with
      | nil =>
        simp only [Value.at, Option.some.injEq] at hx
        subst hx
        simp only [pathOf] at hm
        simp only [childStep, if_true, encryptChild_match e c _ res log1 hm] at h1
        cases henc : e.Vault.EncryptWithVault log1 (Sprint c) e.Project with
        | error err => simp [henc] at h1
        | ok ct =>
          simp only [henc, Prod.mk.injEq] at h1
          obtain ⟨ha, _, _⟩ := h1
          subst ha
          exact ⟨log1, ct, henc, by simp [Value.at, h2, slotAfter]⟩
      | cons s' rest' =>
        have hs : matchesAny res (base ++ s.text) = false :=
          hpre [s] (by simp) (by simp) (by simp)
        simp only [childStep, if_true, encryptChild_noMatch e c _ res log1 hs,
          Prod.mk.injEq] at h1
        obtain ⟨ha, _, _⟩ := h1
        subst ha
        obtain ⟨h', ct, henc, hat⟩ := ih c (base ++ s.text) log2 (by simp) hx hm
          (fun q hqp hne hneq => hpre (s :: q) (by simpa using hqp) (by simp) (by simpa using hneq))
          (h3 hok)
        exact ⟨h', ct, henc, by simpa [Value.at, h2, slotAfter] using hat⟩

/-! ## Decrypt mode -/

/-- Decrypt mode: after a walk that returns no error, a marked string member or element holds
an answer of Vault for the string without its `tfb_`. -/
theorem decrypt_at_marked (e : Elastic) (res : List Regexp) (s : String)
    (hs : HasPrefix s "tfb_vault:" = true) :
    ∀ (p : List Step) (t : Value) (base : String) (log : List Call),
      p ≠ [] → t.at p = some (.string s) →
      (TraverseAndModify e res false t base log).2.2 = none →
      ∃ h d, e.Vault.DecryptWithVault h (TrimPrefix s "tfb_") e.Project = .ok d ∧
        (TraverseAndModify e res false t base log).1.at p = some (.string d) := by
  intro p
  induction p with
  | nil => intro t base log hne; exact absurd rfl hne
  | cons st rest ih =>
    intro t base log _ h hok
    obtain ⟨c, hc, hx⟩ := at_cons t st rest _ h
    rcases walk_child e res false t base log st c hc with ⟨_, h2⟩ | ⟨log1, a, log2, h1, h2, h3⟩
    · exact absurd hok h2
    · cases rest with
      | nil =>
        simp only [Value.at, Option.some.injEq] at hx
        subst hx
        simp only [childStep, Bool.false_eq_true, if_false, decryptChild_marked e s log1 hs] at h1
        cases hdec : e.Vault.DecryptWithVault log1 (TrimPrefix s "tfb_") e.Project with
        | error err => simp [hdec] at h1
        | ok d =>
          simp only [hdec, Prod.mk.injEq] at h1
          obtain ⟨ha, _, _⟩ := h1
          subst ha
          exact ⟨log1, d, hdec, by simp [Value.at, h2, slotAfter]⟩
      | cons s' rest' =>
        have hc' : isMarked c = false := isMarked_of_child c s' rest' _ hx
        simp only [childStep, Bool.false_eq_true, if_false, decryptChild_unmarked e c log1 hc',
          Prod.mk.injEq] at h1
        obtain ⟨ha, _, _⟩ := h1
        subst ha
        obtain ⟨h', d, hdec, hat⟩ := ih c (base ++ st.text) log2 (by simp) hx (h3 hok)
        exact ⟨h', d, hdec, by simpa [Value.at, h2, slotAfter] using hat⟩

theorem markedMap_cons (k : String) (v : Value) (rest : List (String × Value)) :
    markedMap ((k, v) :: rest) =
      (if isMarked v then [Sprint v] else []) ++ marked v ++ markedMap rest := by
  cases v <;> simp [markedMap, isMarked, marked, Sprint]

theorem markedSlice_cons (v : Value) (rest : List Value) :
    markedSlice (v :: rest) =
      (if isMarked v then [Sprint v] else []) ++ marked v ++ markedSlice rest := by
  cases v <;> simp [markedSlice, isMarked, marked, Sprint]

mutual
theorem TraverseAndModify_unmarked (e : Elastic) (res : List Regexp) :
    ∀ (v : Value) (base : String) (log : List Call), marked v = [] →
      TraverseAndModify e res false v base log = (v, log, none)
  | .map kvs, base, log, h => by
    simp only [marked] at h
    simp [TraverseAndModify, traverseMap_unmarked e res kvs base log h]
  | .slice xs, base, log, h => by
    simp only [marked] at h
    simp [TraverseAndModify, traverseSlice_unmarked e res xs base 0 log h]
  | .nil, _, _, _ => rfl
  | .bool _, _, _, _ => rfl
  | .float64 _, _, _, _ => rfl
  | .string _, _, _, _ => rfl
  | .mapSlice _, _, _, _ => rfl
theorem traverseMap_unmarked (e : Elastic) (res : List Regexp) :
    ∀ (kvs : List (String × Value)) (base : String) (log : List Call),
      markedMap kvs = [] → traverseMap e res false base kvs log = (kvs, log, none)
  | [], _, _, _ => rfl
  | (k, v) :: rest, base, log, h => by
    rw [markedMap_cons] at h
    simp only [List.append_eq_nil, ite_eq_right_iff, List.cons_ne_self, imp_false,
      Bool.not_eq_true] at h
    obtain ⟨⟨h1, h2⟩, h3⟩ := h
    simp [traverseMap, childStep, decryptChild_unmarked e v log h1,
      TraverseAndModify_unmarked e res v _ log h2, traverseMap_unmarked e res rest base log h3,
      slotAfter]
theorem traverseSlice_unmarked (e : Elastic) (res : List Regexp) :
    ∀ (xs : List Value) (base : String) (i : Nat) (log : List Call),
      markedSlice xs = [] → traverseSlice e res false base i xs log = (xs, log, none)
  | [], _, _, _, _ => rfl
  | v :: rest, base, i, log, h => by
    rw [markedSlice_cons] at h
    simp only [List.append_eq_nil, ite_eq_right_iff, List.cons_ne_self, imp_false,
      Bool.not_eq_true] at h
    obtain ⟨⟨h1, h2⟩, h3⟩ := h
    simp [traverseSlice, childStep, decryptChild_unmarked e v log h1,
      TraverseAndModify_unmarked e res v _ log h2,
      traverseSlice_unmarked e res rest base (i + 1) log h3, slotAfter]
end

/-- Decrypt mode: a field that is not a marked string and has no marked string below it
keeps its value, whether the walk ends with an error or not. -/
theorem walk_keeps_unmarked (e : Elastic) (res : List Regexp) (x : Value) :
    ∀ (p : List Step) (t : Value) (base : String) (log : List Call),
      t.at p = some x → (p ≠ [] → isMarked x = false) → marked x = [] →
      (TraverseAndModify e res false t base log).1.at p = some x := by
  intro p
  induction p with
  | nil =>
    intro t base log h _ hq
    simp only [Value.at, Option.some.injEq] at h
    subst h
    simp [TraverseAndModify_unmarked e res t base log hq, Value.at]
  | cons s rest ih =>
    intro t base log h hx0 hq
    obtain ⟨c, hc, hx⟩ := at_cons t s rest x h
    have hcm : isMarked c = false := by
      cases rest with
      | nil =>
        simp only [Value.at, Option.some.injEq] at hx
        subst hx
        exact hx0 (by simp)
      | cons s' rest' => exact isMarked_of_child c s' rest' _ hx
    rcases walk_child e res false t base log s c hc with ⟨h1, _⟩ | ⟨log1, a, log2, h1, h2, _⟩
    · simp [Value.at, h1, hx]
    · simp only [childStep, Bool.false_eq_true, if_false, decryptChild_unmarked e c log1 hcm,
        Prod.mk.injEq] at h1
      obtain ⟨ha, _, _⟩ := h1
      subst ha
      simp only [Value.at, h2, slotAfter]
      apply ih c (base ++ s.text) log2 hx _ hq
      intro hne
      exact hx0 (by simp)

theorem isMarked_string (v : Value) (h : isMarked v = true) :
    ∃ s, v = .string s ∧ HasPrefix s "tfb_vault:" = true := by
  cases v <;> simp_all [isMarked]

mutual
/-- Decrypt mode with a Vault that answers every decrypt request: the walk returns no error
and asks Vault exactly once for each marked string it reaches, in order. -/
theorem TraverseAndModify_decrypt_log (e : Elastic) (res : List Regexp)
    (hdec : ∀ h c, ∃ d, e.Vault.DecryptWithVault h c e.Project = .ok d) :
    ∀ (v : Value) (base : String) (log : List Call),
      (TraverseAndModify e res false v base log).2 =
        (log ++ (marked v).map (fun s => Call.decrypt (String.mk (s.data.drop 4)) e.Project),
          none)
  | .map kvs, base, log => by
    simp [TraverseAndModify, marked, traverseMap_decrypt_log e res hdec kvs base log]
  | .slice xs, base, log => by
    simp [TraverseAndModify, marked, traverseSlice_decrypt_log e res hdec xs base 0 log]
  | .nil, _, _ => by simp [TraverseAndModify, marked]
  | .bool _, _, _ => by simp [TraverseAndModify, marked]
  | .float64 _, _, _ => by simp [TraverseAndModify, marked]
  | .string _, _, _ => by simp [TraverseAndModify, marked]
  | .mapSlice _, _, _ => by simp [TraverseAndModify, marked]
theorem traverseMap_decrypt_log (e : Elastic) (res : List Regexp)
    (hdec : ∀ h c, ∃ d, e.Vault.DecryptWithVault h c e.Project = .ok d) :
    ∀ (kvs : List (String × Value)) (base : String) (log : List Call),
      (traverseMap e res false base kvs log).2 =
        (log ++ (markedMap kvs).map
          (fun s => Call.decrypt (String.mk (s.data.drop 4)) e.Project), none)
  | [], _, _ => by simp [traverseMap, markedMap]
  | (k, v) :: rest, base, log => by
    rw [markedMap_cons]
    rcases ht : TraverseAndModify e res false v (base ++ "." ++ k) log with ⟨w, l2, err⟩
    have h1 := TraverseAndModify_decrypt_log e res hdec v (base ++ "." ++ k) log
    rw [ht] at h1
    simp only [Prod.mk.injEq] at h1
    obtain ⟨hl, he⟩ := h1
    subst hl he
    by_cases hm : isMarked v = true
    · obtain ⟨s, hv, hs⟩ := isMarked_string v hm
      obtain ⟨d, hd⟩ := hdec log (TrimPrefix s "tfb_")
      have h2 := traverseMap_decrypt_log e res hdec rest base
        (log ++ [.decrypt (TrimPrefix s "tfb_") e.Project])
      subst hv
      rw [TrimPrefix_of_marked s hs] at hd h2
      simp [traverseMap, childStep, decryptChild_marked e s log hs, hd, TraverseAndModify, h2,
        hm, marked, Sprint, TrimPrefix_of_marked s hs]
    · have hm' : isMarked v = false := by simpa using hm
      have h2 := traverseMap_decrypt_log e res hdec rest base
        (log ++ (marked v).map (fun s => Call.decrypt (String.mk (s.data.drop 4)) e.Project))
      simp [traverseMap, childStep, decryptChild_unmarked e v log hm', ht, h2, hm']
theorem traverseSlice_decrypt_log (e : Elastic) (res : List Regexp)
    (hdec : ∀ h c, ∃ d, e.Vault.DecryptWithVault h c e.Project = .ok d) :
    ∀ (xs : List Value) (base : String) (i : Nat) (log : List Call),
      (traverseSlice e res false base i xs log).2 =
        (log ++ (markedSlice xs).map
          (fun s => Call.decrypt (String.mk (s.data.drop 4)) e.Project), none)
  | [], _, _, _ => by simp [traverseSlice, markedSlice]
  | v :: rest, base, i, log => by
    rw [markedSlice_cons]
    rcases ht : TraverseAndModify e res false v (base ++ "[" ++ toString i ++ "]") log
      with ⟨w, l2, err⟩
    have h1 := TraverseAndModify_decrypt_log e res hdec v (base ++ "[" ++ toString i ++ "]") log
    rw [ht] at h1
    simp only [Prod.mk.injEq] at h1
    obtain ⟨hl, he⟩ := h1
    subst hl he
    by_cases hm : isMarked v = true
    · obtain ⟨s, hv, hs⟩ := isMarked_string v hm
      obtain ⟨d, hd⟩ := hdec log (TrimPrefix s "tfb_")
      have h2 := traverseSlice_decrypt_log e res hdec rest base (i + 1)
        (log ++ [.decrypt (TrimPrefix s "tfb_") e.Project])
      subst hv
      rw [TrimPrefix_of_marked s hs] at hd h2
      simp [traverseSlice, childStep, decryptChild_marked e s log hs, hd, TraverseAndModify, h2,
        hm, marked, Sprint, TrimPrefix_of_marked s hs]
    · have hm' : isMarked v = false := by simpa using hm
      have h2 := traverseSlice_decrypt_log e res hdec rest base (i + 1)
        (log ++ (marked v).map (fun s => Call.decrypt (String.mk (s.data.drop 4)) e.Project))
      simp [traverseSlice, childStep, decryptChild_unmarked e v log hm', ht, h2, hm']
end

mutual
theorem allMarked_of_isJSON : ∀ (v : Value), v.isJSON = true → allMarked v = marked v
  | .map kvs, h => by
    simp only [Value.isJSON] at h
    simp [allMarked, marked, allMarkedMap_of_isJSON kvs h]
  | .slice xs, h => by
    simp only [Value.isJSON] at h
    simp [allMarked, marked, allMarkedSlice_of_isJSON xs h]
  | .nil, _ => rfl
  | .bool _, _ => rfl
  | .float64 _, _ => rfl
  | .string _, _ => rfl
  | .mapSlice _, h => by simp [Value.isJSON] at h
theorem allMarkedMap_of_isJSON : ∀ (kvs : List (String × Value)),
    isJSONMap kvs = true → allMarkedMap kvs = markedMap kvs
  | [], _ => rfl
  | (k, v) :: rest, h => by
    simp only [isJSONMap, Bool.and_eq_true] at h
    have h1 := allMarked_of_isJSON v h.1
    have h2 := allMarkedMap_of_isJSON rest h.2
    cases v <;> simp_all [allMarkedMap, markedMap]
theorem allMarkedSlice_of_isJSON : ∀ (xs : List Value),
    isJSONSlice xs = true → allMarkedSlice xs = markedSlice xs
  | [], _ => rfl
  | v :: rest, h => by
    simp only [isJSONSlice, Bool.and_eq_true] at h
    have h1 := allMarked_of_isJSON v h.1
    have h2 := allMarkedSlice_of_isJSON rest h.2
    cases v <;> simp_all [allMarkedSlice, markedSlice]
end

theorem isJSON_mapIndex : ∀ (kvs : List (String × Value)) (k : String) (c : Value),
    isJSONMap kvs = true → mapIndex kvs k = some c → c.isJSON = true
  | [], _, _, _, h => by simp [mapIndex] at h
  | (k0, v0) :: rest, k, c, hj, h => by
    simp only [isJSONMap, Bool.and_eq_true] at hj
    by_cases h0 : k0 = k
    · simp only [mapIndex, h0, if_true, Option.some.injEq] at h
      exact h ▸ hj.1
    · simp only [mapIndex, h0, if_false] at h
      exact isJSON_mapIndex rest k c hj.2 h

theorem isJSON_getElem : ∀ (xs : List Value) (i : Nat) (c : Value),
    isJSONSlice xs = true → xs[i]? = some c → c.isJSON = true
  | [], _, _, _, h => by simp at h
  | x :: rest, 0, c, hj, h => by
    simp only [isJSONSlice, Bool.and_eq_true] at hj
    simp only [List.getElem?_cons_zero, Option.some.injEq] at h
    exact h ▸ hj.1
  | x :: rest, i + 1, c, hj, h => by
    simp only [isJSONSlice, Bool.and_eq_true] at hj
    simp only [List.getElem?_cons_succ] at h
    exact isJSON_getElem rest i c hj.2 h

/-- Every node of a tree decoded from JSON is one. -/
theorem isJSON_at : ∀ (p : List Step) (t x : Value), t.isJSON = true → t.at p = some x →
    x.isJSON = true
  | [], t, x, hj, h => by
    simp only [Value.at, Option.some.injEq] at h
    exact h ▸ hj
  | s :: rest, t, x, hj, h => by
    obtain ⟨c, hc, hx⟩ := at_cons t s rest x h
    rcases child_cases t s c hc with ⟨kvs, k, rfl, rfl, hk⟩ | ⟨xs, i, rfl, rfl, hi⟩
    · exact isJSON_at rest c x (isJSON_mapIndex kvs k c (by simpa [Value.isJSON] using hj) hk) hx
    · exact isJSON_at rest c x (isJSON_getElem xs i c (by simpa [Value.isJSON] using hj) hi) hx

/-! ## The cluster -/

theorem Cluster.wrote_nil (c : Cluster) : c.wrote [] = c := by
  simp [Cluster.wrote]

theorem Cluster.wrote_wrote (c : Cluster) (a b : List Doc) :
    (c.wrote a).wrote b = c.wrote (a ++ b) := by
  simp [Cluster.wrote, List.drop_drop, Nat.add_comm]

theorem Cluster.faultAt_wrote (c : Cluster) (ds : List Doc) (i : Nat) :
    (c.wrote ds).faultAt i = c.faultAt (ds.length + i) := by
  simp [Cluster.wrote, Cluster.faultAt, List.getElem?_drop]

theorem Cluster.faultAt_next (c : Cluster) (i : Nat) :
    c.next.faultAt i = c.faultAt (i + 1) := by
  simp [Cluster.next, Cluster.faultAt, List.getElem?_drop, Nat.add_comm]

theorem Cluster.head_of_faultAt (c : Cluster) (h : c.faultAt 0 = none) :
    c.faults.head? = none ∨ c.faults.head? = some none := by
  unfold Cluster.faultAt at h
  cases hf : c.faults with
  | nil => simp
  | cons a rest =>
    rw [hf] at h
    cases a <;> simp_all

theorem Cluster.Index_ok (c : Cluster) (index : String) (body : GoMap)
    (h : c.faultAt 0 = none) :
    c.Index index body =
      (.ok ⟨201, .map [("result", .string "created")]⟩, c.wrote [⟨index, none, body⟩]) := by
  rcases c.head_of_faultAt h with h0 | h0 <;>
    simp [Cluster.Index, h0, Cluster.wrote, Cluster.next]

theorem Cluster.Index_fault (c : Cluster) (index : String) (body : GoMap) (f : Fault)
    (h : c.faultAt 0 = some f) : c.Index index body = (f.answer, c.next) := by
  unfold Cluster.faultAt at h
  cases hf : c.faults with
  | nil => simp [hf] at h
  | cons a rest =>
    rw [hf] at h
    cases a with
    | none => simp at h
    | some g =>
      simp at h
      subst h
      simp [Cluster.Index, hf]

theorem Fault.answer_bad (f : Fault) :
    (∃ err, f.answer = .error err) ∨ ∃ res, f.answer = .ok res ∧ res.IsError = true := by
  cases f with
  | transport err => exact .inl ⟨err, rfl⟩
  | rejected code h => exact .inr ⟨_, rfl, by simp [Response.IsError, h]⟩

/-- What a request to index a document does: it is accepted and the document is appended, or
it fails and nothing is written. -/
theorem Cluster.Index_cases (c : Cluster) (index : String) (body : GoMap) :
    (c.faultAt 0 = none ∧ ∃ res, res.IsError = false ∧
        c.Index index body = (.ok res, c.wrote [⟨index, none, body⟩])) ∨
    (c.faultAt 0 ≠ none ∧
      ((∃ err, c.Index index body = (.error err, c.next)) ∨
        ∃ res, res.IsError = true ∧ c.Index index body = (.ok res, c.next))) := by
  cases h : c.faultAt 0 with
  | none =>
    left
    exact ⟨rfl, _, by simp [Response.IsError], c.Index_ok index body h⟩
  | some f =>
    right
    refine ⟨by simp, ?_⟩
    rw [c.Index_fault index body f h]
    rcases f.answer_bad with ⟨err, he⟩ | ⟨res, he, hr⟩
    · left; exact ⟨err, by rw [he]⟩
    · right; exact ⟨res, hr, by rw [he]⟩

/-! ## StoreState: the loop over the resources -/

/-- While the resources are maps and the cluster accepts the requests, the loop writes one
document for each and goes on. -/
theorem storeResources_accepted (e : Elastic) (now : String) (rest : List Value) :
    ∀ (ms : List GoMap) (c : Cluster), (∀ i, i < ms.length → c.faultAt i = none) →
      storeResources e now (ms.map Value.map ++ rest) c =
        storeResources e now rest (c.wrote (ms.map (resourceDoc e now))) := by
  intro ms
  induction ms with
  | nil => intro c _; simp [Cluster.wrote_nil]
  | cons m ms ih =>
    intro c h
    have h0 : c.faultAt 0 = none := h 0 (by simp)
    have hI : (⟨201, .map [("result", .string "created")]⟩ : Response).IsError = false := rfl
    have hrest := ih (c.wrote [resourceDoc e now m]) (by
      intro i hi
      rw [Cluster.faultAt_wrote]
      simpa [Nat.add_comm] using h (i + 1) (by simpa using hi))
    rw [Cluster.wrote_wrote] at hrest
    simp only [List.map_cons, List.cons_append, storeResources, c.Index_ok _ _ h0, hI,
      Bool.false_eq_true, if_false]
    exact hrest

/-- The loop stops with an error at a resource that is not a map or whose request fails, and
writes nothing for it. -/
theorem storeResources_stops (e : Elastic) (now : String) (bad : Value) (rest : List Value)
    (c : Cluster) (h : (∀ m, bad ≠ .map m) ∨ c.faultAt 0 ≠ none) :
    ∃ msg c1, storeResources e now (bad :: rest) c = (some (500, some msg), c1) ∧
      c1.docs = c.docs := by
  cases bad with
  | map m =>
    rcases h with h | h
    · exact absurd rfl (h m)
    · rcases c.Index_cases e.ResourceIndex
          (marshalMap (mapAssign m "timestamp" (.string now))) with ⟨h0, _⟩ | ⟨_, h1 | h1⟩
      · exact absurd h0 h
      · obtain ⟨err, he⟩ := h1
        exact ⟨"error saving resource: " ++ err, c.next, by simp [storeResources, he], rfl⟩
      · obtain ⟨res, hr, he⟩ := h1
        exact ⟨"error saving resource: %!s(<nil>)", c.next,
          by simp [storeResources, he, hr], rfl⟩
  | nil => exact ⟨_, c, rfl, rfl⟩
  | bool _ => exact ⟨_, c, rfl, rfl⟩
  | float64 _ => exact ⟨_, c, rfl, rfl⟩
  | string _ => exact ⟨_, c, rfl, rfl⟩
  | slice _ => exact ⟨_, c, rfl, rfl⟩
  | mapSlice _ => exact ⟨_, c, rfl, rfl⟩

/-- When the loop ends without an error, every resource was a map, every request was accepted
and one document was written for each resource. -/
theorem storeResources_done (e : Elastic) (now : String) :
    ∀ (rs : List Value) (c c1 : Cluster), storeResources e now rs c = (none, c1) →
      ∃ ms : List GoMap, rs = ms.map Value.map ∧ (∀ i, i < ms.length → c.faultAt i = none) ∧
        c1 = c.wrote (ms.map (resourceDoc e now)) := by
  intro rs
  induction rs with
  | nil =>
    intro c c1 h
    simp only [storeResources, Prod.mk.injEq, true_and] at h
    exact ⟨[], rfl, by simp, by simp [← h, Cluster.wrote_nil]⟩
  | cons r rs ih =>
    intro c c1 h
    cases r with
    | map m =>
      rcases c.Index_cases e.ResourceIndex
          (marshalMap (mapAssign m "timestamp" (.string now))) with ⟨h0, res, hr, he⟩ | ⟨_, h1 | h1⟩
      · simp only [storeResources, he, hr, Bool.false_eq_true, if_false] at h
        obtain ⟨ms, hrs, hf, hc⟩ := ih _ _ h
        refine ⟨m :: ms, by simp [hrs], ?_, ?_⟩
        · intro i hi
          cases i with
          | zero => exact h0
          | succ i =>
            have := hf i (by simpa using hi)
            rw [Cluster.faultAt_wrote] at this
            simpa [Nat.add_comm] using this
        · rw [hc, Cluster.wrote_wrote]
          rfl
      · obtain ⟨err, he⟩ := h1
        simp [storeResources, he] at h
      · obtain ⟨res, hr, he⟩ := h1
        simp [storeResources, he, hr] at h
    | nil => simp [storeResources] at h
    | bool _ => simp [storeResources] at h
    | float64 _ => simp [storeResources] at h
    | string _ => simp [storeResources] at h
    | slice _ => simp [storeResources] at h
    | mapSlice _ => simp [storeResources] at h

/-! ## Maps -/

theorem mapIndex_mapAssign_self (m : GoMap) (k : String) (v : Value) :
    mapIndex (mapAssign m k v) k = some v := by
  induction m with
  | nil => simp [mapAssign, mapIndex]
  | cons kv rest ih =>
    obtain ⟨k', v'⟩ := kv
    by_cases h : k' = k
    · simp [mapAssign, mapIndex, h]
    · simp [mapAssign, mapIndex, h, ih]

theorem mapIndex_mapAssign_other (m : GoMap) (k k' : String) (v : Value) (h : k ≠ k') :
    mapIndex (mapAssign m k v) k' = mapIndex m k' := by
  induction m with
  | nil => simp [mapAssign, mapIndex, h]
  | cons kv rest ih =>
    obtain ⟨k0, v0⟩ := kv
    by_cases h0 : k0 = k
    · subst h0
      simp [mapAssign, mapIndex, h]
    · by_cases h1 : k0 = k'
      · subst h1
        simp [mapAssign, mapIndex, h0]
      · simp [mapAssign, mapIndex, h0, h1, ih]

theorem mapIndex_mapDelete_self (m : GoMap) (k : String) : mapIndex (mapDelete m k) k = none := by
  induction m with
  | nil => rfl
  | cons kv rest ih =>
    obtain ⟨k0, v0⟩ := kv
    by_cases h0 : k0 = k
    · simp [mapDelete, h0, ih]
    · simp [mapDelete, mapIndex, h0, ih]

theorem mapIndex_mapDelete_other (m : GoMap) (k k' : String) (h : k ≠ k') :
    mapIndex (mapDelete m k) k' = mapIndex m k' := by
  induction m with
  | nil => rfl
  | cons kv rest ih =>
    obtain ⟨k0, v0⟩ := kv
    by_cases h0 : k0 = k
    · subst h0
      simp [mapDelete, mapIndex, h, ih]
    · by_cases h1 : k0 = k'
      · subst h1
        simp [mapDelete, mapIndex, h0]
      · simp [mapDelete, mapIndex, h0, h1, ih]

theorem mapIndex_marshalMap (m : GoMap) (k : String) :
    mapIndex (marshalMap m) k = (mapIndex m k).map Marshal := by
  induction m with
  | nil => rfl
  | cons kv rest ih =>
    obtain ⟨k0, v0⟩ := kv
    by_cases h0 : k0 = k
    · simp [marshalMap, mapIndex, h0]
    · simp [marshalMap, mapIndex, h0, ih]

/-- Every document `StoreState` builds carries the clock reading of the call. -/
theorem timestamp_stamped (m : GoMap) (now : String) :
    mapIndex (marshalMap (mapAssign m "timestamp" (.string now))) "timestamp"
      = some (.string now) := by
  simp [mapIndex_marshalMap, mapIndex_mapAssign_self, Marshal]

theorem timestampOf_stamped (m : GoMap) (now : String) :
    timestampOf (marshalMap (mapAssign m "timestamp" (.string now))) = some now := by
  simp [timestampOf, timestamp_stamped]

/-! ## StoreState as a whole -/

/-- An error from the loop over the resources has status 500. -/
theorem storeResources_failure (e : Elastic) (now : String) :
    ∀ (rs : List Value) (c c1 : Cluster) (failure : Nat × Option String),
      storeResources e now rs c = (some failure, c1) → ∃ msg, failure = (500, some msg) := by
  intro rs
  induction rs with
  | nil => intro c c1 failure hl; simp [storeResources] at hl
  | cons r rs ih =>
    intro c c1 failure hl
    cases r with
    | map m =>
      rcases c.Index_cases e.ResourceIndex
        (marshalMap (mapAssign m "timestamp" (.string now)))
        with ⟨_, res, hres, he⟩ | ⟨_, h1 | h1⟩
      · simp only [storeResources, he, hres, Bool.false_eq_true, if_false] at hl
        exact ih _ _ _ hl
      · obtain ⟨err, he⟩ := h1
        simp only [storeResources, he, Prod.mk.injEq, Option.some.injEq] at hl
        exact ⟨_, hl.1.symm⟩
      · obtain ⟨res, hres, he⟩ := h1
        simp only [storeResources, he, hres, if_true, Prod.mk.injEq,
          Option.some.injEq] at hl
        exact ⟨_, hl.1.symm⟩
    | nil | bool _ | float64 _ | string _ | slice _ | mapSlice _ =>
      simp only [storeResources, Prod.mk.injEq, Option.some.injEq] at hl
      exact ⟨_, hl.1.symm⟩


/-- The successful run: the walked state is a map with an array of maps under `resources`
and the cluster accepts every request. -/
theorem StoreState_ok (e : Elastic) (now : String) (stateData : Value) (c : Cluster)
    (log : List Call) (stateMap : GoMap) (ms : List GoMap)
    (hwalk : (TraverseAndModify e e.Encrypt true stateData "" log).1 = .map stateMap)
    (hres : mapIndex stateMap "resources" = some (.slice (ms.map Value.map)))
    (hfaults : ∀ i, i < ms.length + 1 → c.faultAt i = none) :
    StoreState e now (.ok stateData) c log =
      (.ret (200, none),
        c.wrote (ms.map (resourceDoc e now) ++ [snapshotDoc e now stateMap]),
        (TraverseAndModify e e.Encrypt true stateData "" log).2.1) := by
  have hloop := storeResources_accepted e now [] ms c (fun i hi => hfaults i (by omega))
  simp only [List.append_nil, storeResources] at hloop
  have hsnap : (c.wrote (ms.map (resourceDoc e now))).faultAt 0 = none := by
    rw [Cluster.faultAt_wrote]
    simpa using hfaults ms.length (by omega)
  have hI : (⟨201, .map [("result", .string "created")]⟩ : Response).IsError = false := rfl
  simp only [StoreState, hwalk, hres, hloop, Cluster.Index_ok _ _ _ hsnap, hI,
    Cluster.wrote_wrote, snapshotDoc]
  rfl

/-- A run that returns `(200, nil)` is the successful run. -/
theorem StoreState_ok_inv (e : Elastic) (now : String) (decoded : Except String Value)
    (c c1 : Cluster) (log log1 : List Call)
    (h : StoreState e now decoded c log = (.ret (200, none), c1, log1)) :
    ∃ (stateData : Value) (stateMap : GoMap) (ms : List GoMap), decoded = .ok stateData ∧
      (TraverseAndModify e e.Encrypt true stateData "" log).1 = .map stateMap ∧
      mapIndex stateMap "resources" = some (.slice (ms.map Value.map)) ∧
      (∀ i, i < ms.length + 1 → c.faultAt i = none) ∧
      c1 = c.wrote (ms.map (resourceDoc e now) ++ [snapshotDoc e now stateMap]) ∧
      log1 = (TraverseAndModify e e.Encrypt true stateData "" log).2.1 := by
  cases decoded with
  | error err => simp [StoreState] at h
  | ok stateData =>
    cases hw : (TraverseAndModify e e.Encrypt true stateData "" log).1 with
    | map stateMap =>
      cases hr : mapIndex stateMap "resources" with
      | none => simp [StoreState, hw, hr] at h
      | some rv =>
        cases rv with
        | slice resources =>
          rcases hl : storeResources e now resources c with ⟨_ | failure, c'⟩
          · obtain ⟨ms, hrs, hf, hc⟩ := storeResources_done e now resources c c' hl
            rcases c'.Index_cases e.StateIndex
              (marshalMap (mapAssign (mapDelete stateMap "resources") "timestamp"
                (.string now))) with ⟨h0, res, hres, he⟩ | ⟨_, h1 | h1⟩
            · simp only [StoreState, hw, hr, hl, he, hres, Bool.false_eq_true, if_false,
                Prod.mk.injEq, true_and] at h
              refine ⟨stateData, stateMap, ms, rfl, hw, hrs ▸ hr, ?_, ?_, h.2.symm⟩
              · intro i hi
                by_cases hlt : i < ms.length
                · exact hf i hlt
                · have : i = ms.length := by omega
                  subst this
                  rw [hc, Cluster.faultAt_wrote] at h0
                  simpa using h0
              · rw [← h.1, hc, Cluster.wrote_wrote]
                rfl
            · obtain ⟨err, he⟩ := h1
              simp [StoreState, hw, hr, hl, he] at h
            · obtain ⟨res, hres, he⟩ := h1
              simp [StoreState, hw, hr, hl, he, hres] at h
          · obtain ⟨msg, hm⟩ := storeResources_failure e now resources c c' failure hl
            subst hm
            simp [StoreState, hw, hr, hl] at h
        | nil => simp [StoreState, hw, hr] at h
        | bool _ => simp [StoreState, hw, hr] at h
        | float64 _ => simp [StoreState, hw, hr] at h
        | string _ => simp [StoreState, hw, hr] at h
        | map _ => simp [StoreState, hw, hr] at h
        | mapSlice _ => simp [StoreState, hw, hr] at h
    | nil => simp [StoreState, hw] at h
    | bool _ => simp [StoreState, hw] at h
    | float64 _ => simp [StoreState, hw] at h
    | string _ => simp [StoreState, hw] at h
    | slice _ => simp [StoreState, hw] at h
    | mapSlice _ => simp [StoreState, hw] at h

/-! ## The sample Vault -/

/-- The sample Vault decrypts what it encrypted, and its ciphertexts begin with `vault:`. -/
theorem echoVault_inverts (h : List Call) (v k ct : String)
    (henc : echoVault.EncryptWithVault h v k = .ok ct) :
    HasPrefix ct "vault:" = true ∧ ∀ h', echoVault.DecryptWithVault h' ct k = .ok v := by
  simp only [echoVault, Except.ok.injEq] at henc
  subst henc
  exact ⟨HasPrefix_append _ _, fun _ => by simp [echoVault, TrimPrefix_append]⟩

theorem prefix_singleton (s : Step) (q : List Step) (h : q <+: [s]) : q = [] ∨ q = [s] := by
  cases q with
  | nil => exact .inl rfl
  | cons a rest =>
    right
    have hl := h.length_le
    obtain ⟨t, ht⟩ := h
    cases rest with
    | nil =>
      simp only [List.singleton_append, List.cons.injEq] at ht
      rw [ht.1]
    | cons b rest' => simp at hl

/-! ## JSON encoding -/

mutual
theorem Marshal_isJSON : ∀ (v : Value), (Marshal v).isJSON = true
  | .nil => rfl
  | .bool _ => rfl
  | .float64 _ => rfl
  | .string _ => rfl
  | .slice xs => by simp [Marshal, Value.isJSON, marshalSlice_isJSON xs]
  | .map kvs => by simp [Marshal, Value.isJSON, marshalMap_isJSON kvs]
  | .mapSlice [] => rfl
  | .mapSlice (m :: ms) => by
    simp [Marshal, Value.isJSON, isJSONSlice, marshalMap_isJSON m, marshalMapSlice_isJSON ms]
theorem marshalSlice_isJSON : ∀ (xs : List Value), isJSONSlice (marshalSlice xs) = true
  | [] => rfl
  | x :: xs => by simp [marshalSlice, isJSONSlice, Marshal_isJSON x, marshalSlice_isJSON xs]
theorem marshalMap_isJSON : ∀ (kvs : List (String × Value)), isJSONMap (marshalMap kvs) = true
  | [] => rfl
  | (k, v) :: rest => by simp [marshalMap, isJSONMap, Marshal_isJSON v, marshalMap_isJSON rest]
theorem marshalMapSlice_isJSON : ∀ (ms : List (List (String × Value))),
    isJSONSlice (marshalMapSlice ms) = true
  | [] => rfl
  | m :: ms => by
    simp [marshalMapSlice, isJSONSlice, Value.isJSON, marshalMap_isJSON m,
      marshalMapSlice_isJSON ms]
end

mutual
/-- A tree decoded from JSON is encoded and decoded again without change. -/
theorem Marshal_of_isJSON : ∀ (v : Value), v.isJSON = true → Marshal v = v
  | .nil, _ => rfl
  | .bool _, _ => rfl
  | .float64 _, _ => rfl
  | .string _, _ => rfl
  | .slice xs, h => by
    simp only [Value.isJSON] at h
    simp [Marshal, marshalSlice_of_isJSON xs h]
  | .map kvs, h => by
    simp only [Value.isJSON] at h
    simp [Marshal, marshalMap_of_isJSON kvs h]
  | .mapSlice _, h => by simp [Value.isJSON] at h
theorem marshalSlice_of_isJSON : ∀ (xs : List Value), isJSONSlice xs = true →
    marshalSlice xs = xs
  | [], _ => rfl
  | x :: xs, h => by
    simp only [isJSONSlice, Bool.and_eq_true] at h
    simp [marshalSlice, Marshal_of_isJSON x h.1, marshalSlice_of_isJSON xs h.2]
theorem marshalMap_of_isJSON : ∀ (kvs : List (String × Value)), isJSONMap kvs = true →
    marshalMap kvs = kvs
  | [], _ => rfl
  | (k, v) :: rest, h => by
    simp only [isJSONMap, Bool.and_eq_true] at h
    simp [marshalMap, Marshal_of_isJSON v h.1, marshalMap_of_isJSON rest h.2]
end

theorem marshalMapSlice_docs (ms : List GoMap) (h : ∀ m ∈ ms, isJSONMap m = true) :
    marshalMapSlice ms = ms.map Value.map := by
  induction ms with
  | nil => rfl
  | cons m ms ih =>
    simp [marshalMapSlice, marshalMap_of_isJSON m (h m (by simp)),
      ih (fun m' hm' => h m' (by simp [hm']))]

/-- The encoding of a slice of JSON documents. -/
theorem Marshal_mapSlice_docs (ms : List GoMap) (h : ∀ m ∈ ms, isJSONMap m = true) :
    Marshal (.mapSlice ms) = jsonDocs ms := by
  cases ms with
  | nil => rfl
  | cons m ms =>
    simp [Marshal, jsonDocs, marshalMap_of_isJSON m (h m (by simp)),
      marshalMapSlice_docs ms (fun m' hm' => h m' (by simp [hm']))]

theorem isJSONMap_mapAssign (m : GoMap) (k : String) (v : Value) (hm : isJSONMap m = true)
    (hv : v.isJSON = true) : isJSONMap (mapAssign m k v) = true := by
  induction m with
  | nil => simp [mapAssign, isJSONMap, hv]
  | cons kv rest ih =>
    obtain ⟨k0, v0⟩ := kv
    simp only [isJSONMap, Bool.and_eq_true] at hm
    by_cases h0 : k0 = k
    · simp [mapAssign, h0, isJSONMap, hv, hm.2]
    · simp [mapAssign, h0, isJSONMap, hm.1, ih hm.2]

theorem isJSONMap_mapDelete (m : GoMap) (k : String) (hm : isJSONMap m = true) :
    isJSONMap (mapDelete m k) = true := by
  induction m with
  | nil => rfl
  | cons kv rest ih =>
    obtain ⟨k0, v0⟩ := kv
    simp only [isJSONMap, Bool.and_eq_true] at hm
    by_cases h0 : k0 = k
    · simp [mapDelete, h0, ih hm.2]
    · simp [mapDelete, h0, isJSONMap, hm.1, ih hm.2]

/-! ## Timestamps -/

theorem charsLt_irrefl (l : List Char) : charsLt l l = false := by
  induction l with
  | nil => rfl
  | cons a rest ih => simp [charsLt, ih]

theorem strLt_irrefl (s : String) : strLt s s = false := charsLt_irrefl s.data

theorem newest_append_last (l : List Doc) (d : Doc)
    (h : ∀ x ∈ l, newer d.source x.source = true) : newest (l ++ [d]) = some d := by
  induction l with
  | nil => rfl
  | cons x rest ih =>
    have hr := ih (fun y hy => h y (by simp [hy]))
    simp [newest, hr, h x (by simp)]

theorem hitSources_hits (l : List Doc) :
    hitSources (l.map Doc.hit) = .ret (l.map fun d => d.source) := by
  induction l with
  | nil => rfl
  | cons d rest ih => simp [hitSources, Doc.hit, mapIndex, ih]

/-! ## GetState after StoreState -/

theorem Cluster.Search_ok (c : Cluster) (index : String) (q : Query) (h : c.faultAt 0 = none) :
    c.Search index q =
      if c.hasIndex index then
        (.ok ⟨200, .map [("hits", .map [("hits", .slice ((c.select index q).map Doc.hit))])]⟩,
          c.next)
      else
        (.ok ⟨404, .map [("error", .string "index_not_found_exception")]⟩, c.next) := by
  rcases c.head_of_faultAt h with h0 | h0 <;> simp [Cluster.Search, h0]

theorem filter_resourceDocs_state (e : Elastic) (now : String) (ms : List GoMap)
    (hindices : e.StateIndex ≠ e.ResourceIndex) :
    (ms.map (resourceDoc e now)).filter (fun d => d.index = e.StateIndex) = [] := by
  rw [List.filter_eq_nil_iff]
  intro d hd
  obtain ⟨m, _, rfl⟩ := List.mem_map.mp hd
  simpa [resourceDoc] using fun h => hindices h.symm

theorem filter_resourceDocs_match (e : Elastic) (now : String) (ms : List GoMap) :
    ((ms.map (resourceDoc e now)).filter (fun d => d.index = e.ResourceIndex)).filter
      (fun d => timestampOf d.source = some now) = ms.map (resourceDoc e now) := by
  rw [List.filter_filter, List.filter_eq_self]
  intro d hd
  obtain ⟨m, _, rfl⟩ := List.mem_map.mp hd
  simp [resourceDoc, timestampOf_stamped]

theorem filter_older_match (e : Elastic) (now : String) (docs : List Doc)
    (hold : ∀ d ∈ docs, ∀ t, timestampOf d.source = some t → strLt t now = true) :
    (docs.filter (fun d => d.index = e.ResourceIndex)).filter
      (fun d => timestampOf d.source = some now) = [] := by
  rw [List.filter_filter, List.filter_eq_nil_iff]
  intro d hd
  simp only [Bool.and_eq_true, decide_eq_true_eq, not_and]
  intro hts _
  have := hold d hd now hts
  rw [strLt_irrefl] at this
  exact absurd this (by simp)

/-- The latest snapshot and its resources, read back from a cluster to which `StoreState` has
just written them: all older documents carry earlier timestamps, the searches are answered,
and the resources fit in one page of hits. -/
theorem GetState_after_StoreState (e : Elastic) (now : String) (c : Cluster)
    (stateMap : GoMap) (ms : List GoMap) (log : List Call)
    (hindices : e.StateIndex ≠ e.ResourceIndex)
    (hold : ∀ d ∈ c.docs, ∀ t, timestampOf d.source = some t → strLt t now = true)
    (hsearch : ∀ i, i < 2 →
      (c.wrote (ms.map (resourceDoc e now) ++ [snapshotDoc e now stateMap])).faultAt i = none)
    (hpage : ms.length ≤ c.pageSize) :
    (GetState e (c.wrote (ms.map (resourceDoc e now) ++ [snapshotDoc e now stateMap])) log).1 =
      .ret (some (Marshal (TraverseAndModify e e.Encrypt false
          (.map (mapAssign (snapshotDoc e now stateMap).source "resources"
            (.mapSlice (ms.map fun m => (resourceDoc e now m).source)))) "" log).1),
        200, none) := by
  generalize hc2 : c.wrote (ms.map (resourceDoc e now) ++ [snapshotDoc e now stateMap]) = c2
    at hsearch ⊢
  have hdocs : c2.docs = c.docs ++ ms.map (resourceDoc e now) ++ [snapshotDoc e now stateMap] := by
    rw [← hc2]; simp [Cluster.wrote]
  have hsize : c2.pageSize = c.pageSize := by rw [← hc2]; rfl
  -- the search for the latest snapshot
  have hstate : c2.hasIndex e.StateIndex = true := by
    simp [Cluster.hasIndex, hdocs, snapshotDoc]
  have hnewest : c2.select e.StateIndex .latest = [snapshotDoc e now stateMap] := by
    have hfil : c2.docs.filter (fun d => d.index = e.StateIndex) =
        c.docs.filter (fun d => d.index = e.StateIndex) ++ [snapshotDoc e now stateMap] := by
      rw [hdocs, List.filter_append, List.filter_append,
        filter_resourceDocs_state e now ms hindices]
      simp [snapshotDoc]
    simp only [Cluster.select, hfil]
    rw [newest_append_last]
    · rfl
    · intro x hx
      have hxc : x ∈ c.docs := (List.mem_filter.mp hx).1
      simp only [newer, snapshotDoc, timestampOf_stamped]
      cases hts : timestampOf x.source with
      | none => rfl
      | some t => exact hold x hxc t hts
  have h1 := c2.Search_ok e.StateIndex .latest (hsearch 0 (by omega))
  rw [hstate, if_pos rfl, hnewest] at h1
  have hfirst : firstHit [("hits", .map [("hits",
      .slice ([snapshotDoc e now stateMap].map Doc.hit))])] =
      .ret (some (snapshotDoc e now stateMap).source, now) := by
    simp [firstHit, mapIndex, Doc.hit, snapshotDoc, timestamp_stamped]
  -- the search for its resources
  have hnext : c2.next.faultAt 0 = none := by
    rw [Cluster.faultAt_next]
    exact hsearch 1 (by omega)
  have hselect : c2.next.select e.ResourceIndex (.matchTimestamp now) =
      ms.map (resourceDoc e now) := by
    have hd : c2.next.docs = c2.docs := rfl
    have hp : c2.next.pageSize = c2.pageSize := rfl
    simp only [Cluster.select, hd, hp, hdocs, List.filter_append,
      filter_older_match e now c.docs hold, filter_resourceDocs_match]
    have hsnap : ([snapshotDoc e now stateMap].filter fun d => d.index = e.ResourceIndex) = [] := by
      simp [snapshotDoc, hindices]
    rw [hsnap]
    simp only [List.filter_nil, List.nil_append, List.append_nil]
    rw [List.take_of_length_le]
    simpa [hsize] using hpage
  have hresources : GetResources e now c2.next =
      (.ret (.ok (ms.map fun m => (resourceDoc e now m).source)), c2.next.next) := by
    have h2 := c2.next.Search_ok e.ResourceIndex (.matchTimestamp now) hnext
    by_cases hidx : c2.next.hasIndex e.ResourceIndex = true
    · rw [hidx, if_pos rfl, hselect] at h2
      have hh := hitSources_hits (ms.map (resourceDoc e now))
      simp only [GetResources, h2, mapIndex, if_true, hh]
      simp only [List.map_map]
      rfl
    · have hnone : ms = [] := by
        cases ms with
        | nil => rfl
        | cons m ms' =>
          exfalso
          apply hidx
          have hd : c2.next.docs = c2.docs := rfl
          simp [Cluster.hasIndex, hd, hdocs, resourceDoc]
      subst hnone
      rw [if_neg hidx] at h2
      simp [GetResources, h2, mapIndex]
  simp only [GetState, h1, Response.IsError, hfirst, hresources]
  rfl

/-! ## Marked strings and map operations -/

theorem markedMap_mapAssign (m : GoMap) (k : String) (v : Value) (h : markedMap m = [])
    (hv : isMarked v = false) (hbelow : marked v = []) :
    markedMap (mapAssign m k v) = [] := by
  induction m with
  | nil =>
    simp only [mapAssign]
    rw [markedMap_cons]
    simp [hv, hbelow, markedMap]
  | cons kv rest ih =>
    obtain ⟨k0, v0⟩ := kv
    rw [markedMap_cons] at h
    simp only [List.append_eq_nil] at h
    by_cases h0 : k0 = k
    · simp only [mapAssign, h0, if_true]
      rw [markedMap_cons]
      simp [hv, hbelow, h.2]
    · simp only [mapAssign, h0, if_false]
      rw [markedMap_cons]
      simp [h.1.1, h.1.2, ih h.2]

theorem isJSONMap_of_mem (ms : List GoMap) (h : isJSONSlice (ms.map Value.map) = true) :
    ∀ m ∈ ms, isJSONMap m = true := by
  induction ms with
  | nil => simp
  | cons m ms ih =>
    simp only [List.map_cons, isJSONSlice, Value.isJSON, Bool.and_eq_true] at h
    intro m' hm'
    rcases List.mem_cons.mp hm' with rfl | hm'
    · exact h.1
    · exact ih h.2 m' hm'

/-! ## Sequences of calls -/

/-- Every document in a cluster after a sequence of successful `StoreState` calls was there
before or carries the clock reading of one of the calls. -/
theorem storeAll_stamps (e : Elastic) :
    ∀ (calls : List (String × Value)) (c c1 : Cluster) (log log1 : List Call),
      storeAll e calls c log = some (c1, log1) →
      ∀ d ∈ c1.docs, d ∈ c.docs ∨ ∃ call ∈ calls, timestampOf d.source = some call.1 := by
  intro calls
  induction calls with
  | nil =>
    intro c c1 log log1 h d hd
    simp only [storeAll, Option.some.injEq, Prod.mk.injEq] at h
    exact .inl (h.1 ▸ hd)
  | cons call rest ih =>
    obtain ⟨now, body⟩ := call
    intro c c1 log log1 h d hd
    rcases hs : StoreState e now (.ok body) c log with ⟨r, c', log'⟩
    have hr : r = .ret (200, none) := by
      simp only [storeAll, hs] at h
      split at h
      · rename_i heq
        simp only [Prod.mk.injEq] at heq
        exact heq.1
      · exact absurd h (by simp)
    subst hr
    simp only [storeAll, hs] at h
    obtain ⟨_, stateMap, ms, _, _, _, _, hc, _⟩ := StoreState_ok_inv e now _ c c' log log' hs
    rcases ih c' c1 log' log1 h d hd with hd' | ⟨call, hcall, hts⟩
    · rw [hc] at hd'
      simp only [Cluster.wrote, List.mem_append, List.mem_map, List.mem_singleton] at hd'
      rcases hd' with hd' | ⟨m, _, rfl⟩ | rfl
      · exact .inl hd'
      · exact .inr ⟨(now, body), by simp, timestampOf_stamped m now⟩
      · exact .inr ⟨(now, body), by simp, timestampOf_stamped _ now⟩
    · exact .inr ⟨call, by simp [hcall], hts⟩

/-- A state without resources whose one write request goes wrong: the call returns status 500
and the cluster has only consumed the request. -/
theorem StoreState_snapshot_fault (e : Elastic) (now : String) (stateData : Value)
    (c : Cluster) (log : List Call) (stateMap : GoMap) (f : Fault)
    (hwalk : (TraverseAndModify e e.Encrypt true stateData "" log).1 = .map stateMap)
    (hres : mapIndex stateMap "resources" = some (.slice (([] : List GoMap).map Value.map)))
    (hfault : c.faultAt 0 = some f) :
    (StoreState e now (.ok stateData) c log).2.1 = c.next ∧
    ∃ msg, (StoreState e now (.ok stateData) c log).1 = .ret (500, some msg) := by
  have hI := c.Index_fault e.StateIndex
    (marshalMap (mapAssign (mapDelete stateMap "resources") "timestamp" (.string now))) f hfault
  simp only [List.map_nil] at hres
  rcases f.answer_bad with ⟨err, he⟩ | ⟨res, he, hr⟩
  · rw [he] at hI
    simp [StoreState, hwalk, hres, storeResources, hI]
  · rw [he] at hI
    simp [StoreState, hwalk, hres, storeResources, hI, hr]

/-! ## Locks -/

theorem Cluster.IndexWithID_new (c : Cluster) (index id : String) (op : OpType) (body : GoMap)
    (hid : id ≠ "") (hanswered : c.faultAt 0 = none) (hfree : c.hasDoc index id = false) :
    c.IndexWithID index id op body =
      (.ok ⟨201, .map [("result", .string "created")]⟩,
        { c.next with docs := c.docs ++ [⟨index, some id, body⟩] }) := by
  rcases c.head_of_faultAt hanswered with h0 | h0 <;>
    simp [Cluster.IndexWithID, h0, hfree, hid]

/-- An index request that names the empty id creates a document with a generated id, whatever
the index holds. -/
theorem Cluster.IndexWithID_generated (c : Cluster) (index : String) (op : OpType)
    (body : GoMap) (hanswered : c.faultAt 0 = none) :
    c.IndexWithID index "" op body =
      (.ok ⟨201, .map [("result", .string "created")]⟩,
        { c.next with docs := c.docs ++ [⟨index, none, body⟩] }) := by
  rcases c.head_of_faultAt hanswered with h0 | h0 <;> simp [Cluster.IndexWithID, h0]

theorem Cluster.IndexWithID_replace (c : Cluster) (index id : String) (body : GoMap)
    (hid : id ≠ "") (hanswered : c.faultAt 0 = none) (hheld : c.hasDoc index id = true) :
    c.IndexWithID index id .index body =
      (.ok ⟨200, .map [("result", .string "updated")]⟩,
        { c.next with docs := c.docs.map fun d =>
            if d.index = index ∧ d.id = some id then ⟨index, some id, body⟩ else d }) := by
  rcases c.head_of_faultAt hanswered with h0 | h0 <;>
    simp [Cluster.IndexWithID, h0, hheld, hid]

theorem Cluster.IndexWithID_conflict (c : Cluster) (index id : String) (body : GoMap)
    (hid : id ≠ "") (hanswered : c.faultAt 0 = none) (hheld : c.hasDoc index id = true) :
    c.IndexWithID index id .create body =
      (.ok ⟨409, .map [("error", .string "version_conflict_engine_exception")]⟩, c.next) := by
  rcases c.head_of_faultAt hanswered with h0 | h0 <;>
    simp [Cluster.IndexWithID, h0, hheld, hid]

theorem Cluster.Delete_found (c : Cluster) (index id : String)
    (hanswered : c.faultAt 0 = none) (hheld : c.hasDoc index id = true) :
    c.Delete index id =
      (.ok ⟨200, .map [("result", .string "deleted")]⟩,
        { c.next with docs :=
            c.docs.filter fun d => ¬ (d.index = index ∧ d.id = some id) }) := by
  rcases c.head_of_faultAt hanswered with h0 | h0 <;> simp [Cluster.Delete, h0, hheld]

theorem Cluster.Delete_missing (c : Cluster) (index id : String)
    (hanswered : c.faultAt 0 = none) (hfree : c.hasDoc index id = false) :
    c.Delete index id = (.ok ⟨404, .map [("result", .string "not_found")]⟩, c.next) := by
  rcases c.head_of_faultAt hanswered with h0 | h0 <;> simp [Cluster.Delete, h0, hfree]

/-- On a cluster without a lock document for the project, `AcquireLock` creates one and returns
`(true, nil)`. -/
theorem AcquireLock_free (p a : String) (c : Cluster) (hp : p ≠ "")
    (hanswered : c.faultAt 0 = none) (hfree : c.hasDoc lockIndex p = false) :
    AcquireLock p a c =
      (.ret (true, none),
        { c.next with docs := c.docs ++ [⟨lockIndex, some p, lockBody p a⟩] }) := by
  simp [AcquireLock, Cluster.IndexWithID_new c _ _ _ _ hp hanswered hfree, clientResult,
    acquireAfter]

/-- For the empty project the request names no document: every answered `AcquireLock` creates
a document with a generated id and returns `(true, nil)`, also when earlier calls did. -/
theorem AcquireLock_empty_project (b : String) (c : Cluster)
    (hanswered : c.faultAt 0 = none) :
    AcquireLock "" b c =
      (.ret (true, none),
        { c.next with docs := c.docs ++ [⟨lockIndex, none, lockBody "" b⟩] }) := by
  simp [AcquireLock, Cluster.IndexWithID_generated c _ _ _ hanswered, clientResult,
    acquireAfter]

/-- On a cluster with a lock document for the project, `AcquireLock` returns `(false, nil)` and
the document is replaced by the one of the new caller. -/
theorem AcquireLock_held (p b : String) (c : Cluster) (hp : p ≠ "")
    (hanswered : c.faultAt 0 = none) (hheld : c.hasDoc lockIndex p = true) :
    AcquireLock p b c =
      (.ret (false, none),
        { c.next with docs := c.docs.map fun d =>
            if d.index = lockIndex ∧ d.id = some p then ⟨lockIndex, some p, lockBody p b⟩
            else d }) := by
  simp [AcquireLock, Cluster.IndexWithID_replace c _ _ _ hp hanswered hheld, clientResult,
    acquireAfter]

theorem ReleaseLock_held (p : String) (c : Cluster)
    (hanswered : c.faultAt 0 = none) (hheld : c.hasDoc lockIndex p = true) :
    ReleaseLock p c =
      (.ret (true, none),
        { c.next with docs :=
            c.docs.filter fun d => ¬ (d.index = lockIndex ∧ d.id = some p) }) := by
  simp [ReleaseLock, Cluster.Delete_found c _ _ hanswered hheld, clientResult, releaseAfter]

theorem ReleaseLock_free (p : String) (c : Cluster)
    (hanswered : c.faultAt 0 = none) (hfree : c.hasDoc lockIndex p = false) :
    ReleaseLock p c = (.ret (false, none), c.next) := by
  simp [ReleaseLock, Cluster.Delete_missing c _ _ hanswered hfree, clientResult, releaseAfter]

theorem hasDoc_append_self (docs : List Doc) (index id : String) (body : GoMap) :
    (docs ++ [(⟨index, some id, body⟩ : Doc)]).any
      (fun d => d.index = index ∧ d.id = some id) = true := by
  simp

theorem hasDoc_replace (docs : List Doc) (index id : String) (body : GoMap) :
    (docs.map fun d =>
      if d.index = index ∧ d.id = some id then (⟨index, some id, body⟩ : Doc) else d).any
      (fun d => d.index = index ∧ d.id = some id) =
    docs.any (fun d => d.index = index ∧ d.id = some id) := by
  induction docs with
  | nil => rfl
  | cons d rest ih =>
    by_cases hd : d.index = index ∧ d.id = some id
    · simp [hd]
    · simp only [List.map_cons, List.any_cons, hd, if_false, ih]

theorem hasDoc_delete (docs : List Doc) (index id : String) :
    (docs.filter fun d => ¬ (d.index = index ∧ d.id = some id)).any
      (fun d => d.index = index ∧ d.id = some id) = false := by
  rw [List.any_eq_false]
  intro x hx
  have h := (List.mem_filter.mp hx).2
  simp only [decide_eq_true_eq] at h
  simpa using h

/-! ## Encrypt mode: the requests sent to Vault -/

theorem encryptCalls_nil (e : Elastic) (res : List Regexp) (base : String) :
    encryptCalls e res base [] = [] := rfl

theorem encryptCalls_cons (e : Elastic) (res : List Regexp) (base : String)
    (n : List Step × Value) (nodes : List (List Step × Value)) :
    encryptCalls e res base (n :: nodes) =
      (if matchesAny res (pathOf base n.1) then [Call.encrypt (Sprint n.2) e.Project] else [])
        ++ encryptCalls e res base nodes := by
  by_cases h : matchesAny res (pathOf base n.1) = true
  · simp [encryptCalls, List.filter_cons, h]
  · simp [encryptCalls, List.filter_cons, h]

theorem encryptCalls_append (e : Elastic) (res : List Regexp) (base : String)
    (a b : List (List Step × Value)) :
    encryptCalls e res base (a ++ b) = encryptCalls e res base a ++ encryptCalls e res base b := by
  simp [encryptCalls, List.filter_append]

theorem encryptCalls_below (e : Elastic) (res : List Regexp) (base : String) (s : Step)
    (nodes : List (List Step × Value)) :
    encryptCalls e res base (nodes.map fun n => (s :: n.1, n.2)) =
      encryptCalls e res (base ++ s.text) nodes := by
  induction nodes with
  | nil => rfl
  | cons n rest ih =>
    rw [List.map_cons, encryptCalls_cons, encryptCalls_cons, ih]
    rfl

/-- The encrypt branch sends one request when the path is matched and none when it is not. -/
theorem childStep_encrypt_log (e : Elastic) (res : List Regexp) (val : Value) (path : String)
    (log log1 : List Call) (assigned : Option Value)
    (h : childStep e res true val path log = (assigned, log1, none)) :
    log1 = log ++
      (if matchesAny res path then [Call.encrypt (Sprint val) e.Project] else []) := by
  by_cases hm : matchesAny res path = true
  · simp only [childStep, if_true, encryptChild_match e val path res log hm] at h
    cases henc : e.Vault.EncryptWithVault log (Sprint val) e.Project with
    | error err => simp [henc] at h
    | ok ct =>
      simp only [henc, Prod.mk.injEq] at h
      simp [hm, h.2.1]
  · have hm' : matchesAny res path = false := by simpa using hm
    simp only [childStep, if_true, encryptChild_noMatch e val path res log hm',
      Prod.mk.injEq] at h
    simp [hm', h.2.1]

mutual
/-- Encrypt mode: when the walk returns no error, the requests it sent to Vault are one for
each node below whose path is matched, in the order of the walk. -/
theorem TraverseAndModify_encrypt_log (e : Elastic) (res : List Regexp) :
    ∀ (v : Value) (base : String) (log : List Call),
      (TraverseAndModify e res true v base log).2.2 = none →
      (TraverseAndModify e res true v base log).2.1 =
        log ++ encryptCalls e res base (nodesBelow v)
  | .map kvs, base, log, h => by
    simp only [TraverseAndModify] at h ⊢
    simpa [nodesBelow] using traverseMap_encrypt_log e res kvs base log h
  | .slice xs, base, log, h => by
    simp only [TraverseAndModify] at h ⊢
    simpa [nodesBelow] using traverseSlice_encrypt_log e res xs base 0 log h
  | .nil, _, _, _ => by simp [TraverseAndModify, nodesBelow, encryptCalls]
  | .bool _, _, _, _ => by simp [TraverseAndModify, nodesBelow, encryptCalls]
  | .float64 _, _, _, _ => by simp [TraverseAndModify, nodesBelow, encryptCalls]
  | .string _, _, _, _ => by simp [TraverseAndModify, nodesBelow, encryptCalls]
  | .mapSlice _, _, _, _ => by simp [TraverseAndModify, nodesBelow, encryptCalls]
theorem traverseMap_encrypt_log (e : Elastic) (res : List Regexp) :
    ∀ (kvs : List (String × Value)) (base : String) (log : List Call),
      (traverseMap e res true base kvs log).2.2 = none →
      (traverseMap e res true base kvs log).2.1 =
        log ++ encryptCalls e res base (nodesBelowMap kvs)
  | [], _, _, _ => by simp [traverseMap, nodesBelowMap, encryptCalls]
  | (k, v) :: rest, base, log, h => by
    rcases hcs : childStep e res true v (base ++ "." ++ k) log with ⟨a, l1, _ | err⟩
    · rcases ht : TraverseAndModify e res true v (base ++ "." ++ k) l1 with ⟨w, l2, _ | err⟩
      · simp only [traverseMap, hcs, ht] at h ⊢
        have h1 := childStep_encrypt_log e res v _ log l1 a hcs
        have h2 := TraverseAndModify_encrypt_log e res v (base ++ "." ++ k) l1 (by rw [ht])
        rw [ht] at h2
        simp only at h2
        have h3 := traverseMap_encrypt_log e res rest base l2 h
        rw [h3, h2, h1, nodesBelowMap, encryptCalls_append, encryptCalls_cons,
          encryptCalls_below, append_key]
        simp [pathOf, append_key]
      · simp [traverseMap, hcs, ht] at h
    · simp [traverseMap, hcs] at h
theorem traverseSlice_encrypt_log (e : Elastic) (res : List Regexp) :
    ∀ (xs : List Value) (base : String) (i : Nat) (log : List Call),
      (traverseSlice e res true base i xs log).2.2 = none →
      (traverseSlice e res true base i xs log).2.1 =
        log ++ encryptCalls e res base (nodesBelowSlice i xs)
  | [], _, _, _, _ => by simp [traverseSlice, nodesBelowSlice, encryptCalls]
  | v :: rest, base, i, log, h => by
    rcases hcs : childStep e res true v (base ++ "[" ++ toString i ++ "]") log
      with ⟨a, l1, _ | err⟩
    · rcases ht : TraverseAndModify e res true v (base ++ "[" ++ toString i ++ "]") l1
        with ⟨w, l2, _ | err⟩
      · simp only [traverseSlice, hcs, ht] at h ⊢
        have h1 := childStep_encrypt_log e res v _ log l1 a hcs
        have h2 := TraverseAndModify_encrypt_log e res v (base ++ "[" ++ toString i ++ "]") l1
          (by rw [ht])
        rw [ht] at h2
        simp only at h2
        have h3 := traverseSlice_encrypt_log e res rest base (i + 1) l2 h
        rw [h3, h2, h1, nodesBelowSlice, encryptCalls_append, encryptCalls_cons,
          encryptCalls_below, append_index]
        simp [pathOf, append_index]
      · simp [traverseSlice, hcs, ht] at h
    · simp [traverseSlice, hcs] at h
end

/-! ## Encrypt mode: a field whose path is not matched -/

/-- Encrypt mode: after a walk that returns no error, a field such that no pattern matches its
path or the path of an ancestor holds what the walk of its value, called with its path, has
made of it. -/
theorem walk_descends (e : Elastic) (res : List Regexp) (x : Value) :
    ∀ (p : List Step) (t : Value) (base : String) (log : List Call),
      p ≠ [] → t.at p = some x →
      (∀ q, q <+: p → q ≠ [] → matchesAny res (pathOf base q) = false) →
      (TraverseAndModify e res true t base log).2.2 = none →
      ∃ log1, (TraverseAndModify e res true t base log).1.at p =
        some (TraverseAndModify e res true x (pathOf base p) log1).1 := by
  intro p
  induction p with
  | nil => intro t base log hne; exact absurd rfl hne
  | cons s rest ih =>
    intro t base log _ h hpre hok
    obtain ⟨c, hc, hx⟩ := at_cons t s rest x h
    have hs : matchesAny res (base ++ s.text) = false := hpre [s] (by simp) (by simp)
    rcases walk_child e res true t base log s c hc with
      ⟨_, h2⟩ | ⟨log1, a, log2, h1, h2, h3⟩
    · exact absurd hok h2
    · simp only [childStep, if_true, encryptChild_noMatch e c _ res log1 hs,
        Prod.mk.injEq] at h1
      obtain ⟨ha, _, _⟩ := h1
      subst ha
      cases rest with
      | nil =>
        simp only [Value.at, Option.some.injEq] at hx
        subst hx
        exact ⟨log2, by simp [Value.at, h2, slotAfter, pathOf]⟩
      | cons s' rest' =>
        obtain ⟨l, hl⟩ := ih c (base ++ s.text) log2 (by simp) hx
          (fun q hqp hne => hpre (s :: q) (by simpa using hqp) (by simp)) (h3 hok)
        exact ⟨l, by simpa [Value.at, h2, slotAfter, pathOf] using hl⟩

/-! ## Paths that continue below a node -/

theorem at_append (t : Value) (p q : List Step) :
    t.at (p ++ q) = match t.at p with
      | some x => x.at q
      | none => none := by
  induction p generalizing t with
  | nil => simp [Value.at]
  | cons s rest ih =>
    simp only [List.cons_append, Value.at]
    cases t.child s with
    | none => rfl
    | some c => exact ih c

theorem at_below_string (s : String) (q : List Step) (hq : q ≠ []) :
    (Value.string s).at q = none := by
  cases q with
  | nil => exact absurd rfl hq
  | cons st rest => simp [Value.at, Value.child]

/-! ## The claims -/

/-- C1 (the code does otherwise): with a pattern for `.secret` and a Vault whose encrypt call
fails, `TraverseAndModify` returns the error, but `StoreState` does not read it: on
`{"secret":"hunter2","resources":[]}` it returns `(200, nil)` and writes the snapshot document
with the plaintext `hunter2`. -/
theorem StoreState_drops_encrypt_error :
    (TraverseAndModify (demo [exactly ".secret"] sealedVault) [exactly ".secret"] true
        (secretState "hunter2") "" []).2.2 = some "Vault is sealed" ∧
    StoreState (demo [exactly ".secret"] sealedVault) "2024-05-01T10:00:00Z"
        (.ok (secretState "hunter2")) emptyCluster [] =
      (.ret (200, none),
        ⟨[], [⟨"terraform-state", none,
          [("secret", .string "hunter2"), ("timestamp", .string "2024-05-01T10:00:00Z")]⟩], 10, []⟩,
        [.encrypt "hunter2" "demo"]) :=
  ⟨rfl, rfl⟩

/-- C2: for every string `v` and every pattern list that matches `.secret` and not
`.resources`, when Vault answers the encrypt request for `v` with the ciphertext `ct`,
`StoreState` on `{"secret": v, "resources": []}` (its members visited in either order) writes
no document whose `secret` is `v`, whether or not the cluster accepts the write; when the
cluster answers the write request, the call returns `(200, nil)` and writes exactly one
document, to the state index, whose `secret` is `"tfb_" + ct`; when it does not, the call
returns status 500 and nothing is written.  A transit ciphertext is not shorter than its
plaintext: Vault answers with `vault:v1:` followed by the base64 text of nonce, encrypted bytes
and tag. -/
theorem StoreState_masks_secret (e : Elastic) (now v ct : String) (c : Cluster)
    (log : List Call) (body : Value)
    (hbody : body = .map [("secret", .string v), ("resources", .slice [])] ∨
      body = .map [("resources", .slice []), ("secret", .string v)])
    (hsecret : matchesAny e.Encrypt ".secret" = true)
    (hresources : matchesAny e.Encrypt ".resources" = false)
    (henc : e.Vault.EncryptWithVault log v e.Project = .ok ct)
    (hlen : v.length ≤ ct.length) :
    ∃ written : List Doc,
      (StoreState e now (.ok body) c log).2.1.docs = c.docs ++ written ∧
      (∀ d, d ∈ written → mapIndex d.source "secret" ≠ some (.string v)) ∧
      (c.faultAt 0 = none →
        (StoreState e now (.ok body) c log).1 = .ret (200, none) ∧
        written = [⟨e.StateIndex, none,
          [("secret", .string ("tfb_" ++ ct)), ("timestamp", .string now)]⟩]) ∧
      (c.faultAt 0 ≠ none →
        (∃ msg, (StoreState e now (.ok body) c log).1 = .ret (500, some msg)) ∧
        written = []) := by
  have hp1 : ("" : String) ++ "." ++ "secret" = ".secret" := by decide
  have hp2 : ("" : String) ++ "." ++ "resources" = ".resources" := by decide
  have hs := encryptChild_match e (.string v) ".secret" e.Encrypt log hsecret
  simp only [Sprint, henc] at hs
  have hne : "tfb_" ++ ct ≠ v := by
    intro h
    have hl := congrArg String.length h
    rw [String.length_append] at hl
    have h4 : ("tfb_" : String).length = 4 := by decide
    omega
  have hstored : ∃ stateMap : GoMap,
      (TraverseAndModify e e.Encrypt true body "" log).1 = .map stateMap ∧
      mapIndex stateMap "resources" = some (.slice (([] : List GoMap).map Value.map)) ∧
      snapshotDoc e now stateMap = ⟨e.StateIndex, none,
        [("secret", .string ("tfb_" ++ ct)), ("timestamp", .string now)]⟩ := by
    rcases hbody with rfl | rfl
    · refine ⟨[("secret", .string ("tfb_" ++ ct)), ("resources", .slice [])], ?_, rfl, ?_⟩
      · simp [TraverseAndModify, traverseMap, traverseSlice, childStep, hp1, hp2, hs,
          encryptChild_noMatch e _ ".resources" e.Encrypt _ hresources, slotAfter]
      · simp [snapshotDoc, mapDelete, mapAssign, marshalMap, Marshal]
    · refine ⟨[("resources", .slice []), ("secret", .string ("tfb_" ++ ct))], ?_, rfl, ?_⟩
      · simp [TraverseAndModify, traverseMap, traverseSlice, childStep, hp1, hp2, hs,
          encryptChild_noMatch e _ ".resources" e.Encrypt _ hresources, slotAfter]
      · simp [snapshotDoc, mapDelete, mapAssign, marshalMap, Marshal]
  obtain ⟨stateMap, hwalk, hres, hdoc⟩ := hstored
  cases hfault : c.faultAt 0 with
  | none =>
    have hrun := StoreState_ok e now body c log stateMap [] hwalk hres
      (fun i hi => by
        have : i = 0 := by simpa using hi
        subst this
        exact hfault)
    refine ⟨[⟨e.StateIndex, none,
      [("secret", .string ("tfb_" ++ ct)), ("timestamp", .string now)]⟩], ?_, ?_, ?_, ?_⟩
    · rw [hrun]
      simp [Cluster.wrote, hdoc]
    · intro d hd
      simp only [List.mem_singleton] at hd
      subst hd
      simp only [mapIndex, if_true, ne_eq, Option.some.injEq, Value.string.injEq]
      exact hne
    · intro _
      exact ⟨by rw [hrun], rfl⟩
    · intro h
      exact absurd rfl h
  | some f =>
    have hrun := StoreState_snapshot_fault e now body c log stateMap f hwalk hres hfault
    refine ⟨[], ?_, ?_, ?_, ?_⟩
    · rw [hrun.1]
      simp [Cluster.next]
    · intro d hd
      simp at hd
    · intro h
      simp at h
    · intro _
      exact ⟨hrun.2, rfl⟩

/-- Witness for C2: the pattern `^\.secret$`, the Vault that puts `vault:` before the
plaintext, the value `hunter2` and an empty cluster. -/
theorem StoreState_masks_secret_witness :
    matchesAny (demo [exactly ".secret"] echoVault).Encrypt ".secret" = true ∧
    ("hunter2" : String).length ≤ ("vault:hunter2" : String).length ∧
    (StoreState (demo [exactly ".secret"] echoVault) "2024-05-01T10:00:00Z"
        (.ok (secretState "hunter2")) emptyCluster []).2.1.docs =
      [⟨"terraform-state", none,
        [("secret", .string "tfb_vault:hunter2"),
          ("timestamp", .string "2024-05-01T10:00:00Z")]⟩] ∧
    ∃ written : List Doc,
      (StoreState (demo [exactly ".secret"] echoVault) "2024-05-01T10:00:00Z"
        (.ok (secretState "hunter2")) emptyCluster []).2.1.docs =
          emptyCluster.docs ++ written ∧
      (∀ d, d ∈ written → mapIndex d.source "secret" ≠ some (.string "hunter2")) ∧
      (emptyCluster.faultAt 0 = none →
        (StoreState (demo [exactly ".secret"] echoVault) "2024-05-01T10:00:00Z"
          (.ok (secretState "hunter2")) emptyCluster []).1 = .ret (200, none) ∧
        written = [⟨(demo [exactly ".secret"] echoVault).StateIndex, none,
          [("secret", .string ("tfb_" ++ "vault:hunter2")),
            ("timestamp", .string "2024-05-01T10:00:00Z")]⟩]) ∧
      (emptyCluster.faultAt 0 ≠ none →
        (∃ msg, (StoreState (demo [exactly ".secret"] echoVault) "2024-05-01T10:00:00Z"
          (.ok (secretState "hunter2")) emptyCluster []).1 = .ret (500, some msg)) ∧
        written = []) :=
  ⟨rfl, by decide, rfl,
    StoreState_masks_secret (demo [exactly ".secret"] echoVault) "2024-05-01T10:00:00Z"
      "hunter2" "vault:hunter2" emptyCluster [] (secretState "hunter2") (.inl rfl) rfl rfl rfl
      (by decide)⟩

/-- C3 as stated fails for a number: with a Vault whose decrypt inverts its encrypt and whose
ciphertexts begin with `vault:`, the number `8080` at the matched path `.port` comes back from
encrypt and decrypt as the string `"8080"`. -/
theorem encrypt_decrypt_number_counterexample :
    (∀ h v k ct, echoVault.EncryptWithVault h v k = .ok ct →
      HasPrefix ct "vault:" = true ∧ ∀ h', echoVault.DecryptWithVault h' ct k = .ok v) ∧
    portTree.at [.key "port"] = some (.float64 "8080") ∧
    matchesAny [exactly ".port"] (pathOf "" [.key "port"]) = true ∧
    (TraverseAndModify (demo [exactly ".port"] echoVault) [exactly ".port"] false
      (TraverseAndModify (demo [exactly ".port"] echoVault) [exactly ".port"] true
        portTree "" []).1 "" []).1.at [.key "port"] = some (.string "8080") ∧
    Value.string "8080" ≠ Value.float64 "8080" :=
  ⟨echoVault_inverts, rfl, rfl, rfl, by simp⟩

/-- C3, amended: for every tree, every pattern list and every value `x` that is a member or
element at a path that some pattern matches while no pattern matches the path of an ancestor:
with a Vault whose decrypt inverts its encrypt and whose ciphertexts begin with `vault:`, when
the walk in encrypt mode returns no error and the walk in decrypt mode over its result (or
over any tree `stored` that holds the same value at that path, such as the result with its
members in another order) returns no error, that path holds the string `fmt.Sprint(x)`: `x`
itself when `x` is a string, and the text of `x` when `x` is a number, a boolean or null. -/
theorem encrypt_decrypt_restores_text (e : Elastic) (res : List Regexp) (t stored : Value)
    (p : List Step) (x : Value) (log log' : List Call)
    (hvault : ∀ h v k ct, e.Vault.EncryptWithVault h v k = .ok ct →
      HasPrefix ct "vault:" = true ∧ ∀ h', e.Vault.DecryptWithVault h' ct k = .ok v)
    (hfield : p ≠ [])
    (hx : t.at p = some x)
    (hmatch : matchesAny res (pathOf "" p) = true)
    (hancestors : ∀ q, q <+: p → q ≠ [] → q ≠ p → matchesAny res (pathOf "" q) = false)
    (hencrypt : (TraverseAndModify e res true t "" log).2.2 = none)
    (hstored : stored.at p = (TraverseAndModify e res true t "" log).1.at p)
    (hdecrypt : (TraverseAndModify e res false stored "" log').2.2 = none) :
    (TraverseAndModify e res false stored "" log').1.at p = some (.string (Sprint x)) ∧
    (∀ s, x = .string s → Sprint x = s) := by
  refine ⟨?_, fun s hs => by rw [hs]; rfl⟩
  obtain ⟨h, ct, henc, hat⟩ := encrypt_at_matched e res x p t "" log
    hfield hx hmatch hancestors hencrypt
  rw [← hstored] at hat
  obtain ⟨hpre, hinv⟩ := hvault h (Sprint x) e.Project ct henc
  obtain ⟨h', d, hdec, hat'⟩ := decrypt_at_marked e res ("tfb_" ++ ct)
    (HasPrefix_tfb_vault ct hpre) p stored "" log' hfield hat hdecrypt
  rw [TrimPrefix_append, hinv h'] at hdec
  simp only [Except.ok.injEq] at hdec
  rw [hat', hdec]

/-- Witness for C3: the string `hunter2` under `secret`, with the pattern `^\.secret$`. -/
theorem encrypt_decrypt_restores_text_witness :
    (secretState "hunter2").at [.key "secret"] = some (.string "hunter2") ∧
    (TraverseAndModify (demo [exactly ".secret"] echoVault) [exactly ".secret"] true
      (secretState "hunter2") "" []).1 =
        .map [("secret", .string "tfb_vault:hunter2"), ("resources", .slice [])] ∧
    (TraverseAndModify (demo [exactly ".secret"] echoVault) [exactly ".secret"] false
      (.map [("secret", .string "tfb_vault:hunter2"), ("resources", .slice [])])
        "" []).1.at [.key "secret"] =
      some (.string (Sprint (.string "hunter2"))) :=
  ⟨rfl, rfl, (encrypt_decrypt_restores_text (demo [exactly ".secret"] echoVault)
    [exactly ".secret"] (secretState "hunter2")
    (.map [("secret", .string "tfb_vault:hunter2"), ("resources", .slice [])])
    [.key "secret"] (.string "hunter2") [] []
    echoVault_inverts (by simp) rfl rfl
    (fun q hq hne hnp => by
      rcases prefix_singleton _ q hq with h | h
      · exact absurd h hne
      · exact absurd h hnp)
    rfl rfl rfl).1⟩

/-- C4 as stated fails: with the only pattern `^\.db\.password$`, the field `db` has a path
that no pattern matches, yet its value changes, because a member below it is encrypted; and
with the only pattern `^\.db$`, the field `db.user` has a path that no pattern matches, yet it
is gone after the walk, because the object above it is replaced. -/
theorem encrypt_frame_counterexample :
    matchesAny [exactly ".db.password"] (pathOf "" [.key "db"]) = false ∧
    dbTree.at [.key "db"] =
      some (.map [("password", .string "pw"), ("user", .string "admin")]) ∧
    (TraverseAndModify (demo [exactly ".db.password"] echoVault) [exactly ".db.password"] true
      dbTree "" []).1.at [.key "db"] =
      some (.map [("password", .string "tfb_vault:pw"), ("user", .string "admin")]) ∧
    matchesAny [exactly ".db"] (pathOf "" [.key "db", .key "user"]) = false ∧
    dbTree.at [.key "db", .key "user"] = some (.string "admin") ∧
    (TraverseAndModify (demo [exactly ".db"] echoVault) [exactly ".db"] true
      dbTree "" []).1.at [.key "db", .key "user"] = none :=
  ⟨rfl, rfl, rfl, rfl, rfl, rfl⟩

/-- C4, amended: for every tree and every pattern list, every field (object member or array
element) such that no pattern matches its own path, the path of an ancestor or the path of a
member or element below it has the same value after `TraverseAndModify` in encrypt mode as
before, whether the walk returns an error or not. -/
theorem encrypt_frame (e : Elastic) (res : List Regexp) (t : Value) (p : List Step)
    (x : Value) (log : List Call)
    (hx : t.at p = some x)
    (hpath : ∀ q, q <+: p → q ≠ [] → matchesAny res (pathOf "" q) = false)
    (hbelow : quiet res x (pathOf "" p) = true) :
    (TraverseAndModify e res true t "" log).1.at p = some x :=
  walk_keeps_unmatched e res x p t "" log hx hpath hbelow

/-- Witness for C4: the field `db.user` when the only pattern is `^\.db\.password$`. -/
theorem encrypt_frame_witness :
    dbTree.at [.key "db", .key "user"] = some (.string "admin") ∧
    (TraverseAndModify (demo [exactly ".db.password"] echoVault) [exactly ".db.password"] true
      dbTree "" []).1.at [.key "db", .key "user"] = some (.string "admin") :=
  ⟨rfl, encrypt_frame (demo [exactly ".db.password"] echoVault) [exactly ".db.password"] dbTree
    [.key "db", .key "user"] (.string "admin") [] rfl
    (fun q hq hne => by
      have hl := hq.length_le
      obtain ⟨t, ht⟩ := hq
      match q, ht, hne, hl with
      | [_], ht, _, _ =>
        simp only [List.singleton_append, List.cons.injEq] at ht
        rw [ht.1]; rfl
      | [_, _], ht, _, _ =>
        simp only [List.cons_append, List.cons.injEq] at ht
        rw [ht.1, ht.2.1]; rfl)
    rfl⟩

/-- The decrypt walk over a tree decoded from JSON (objects, arrays and scalars, so without
a typed slice): when Vault answers every decrypt request for the
project key, `TraverseAndModify` in decrypt mode returns no error; it sends Vault exactly one
request for each string member or array element that begins with `tfb_vault:`, in order,
namely to decrypt under the project key the string without its first four characters `tfb_`;
each such string is replaced by the answer to its request; and every field that is not such a
string and has none below it, so also a string that begins with `tfb_` but not with
`tfb_vault:`, keeps its value. -/
theorem decrypt_walk_of_json (e : Elastic) (res : List Regexp) (t : Value)
    (log : List Call)
    (hjson : t.isJSON = true)
    (hvault : ∀ h ct, ∃ d, e.Vault.DecryptWithVault h ct e.Project = .ok d) :
    (TraverseAndModify e res false t "" log).2.2 = none ∧
    (TraverseAndModify e res false t "" log).2.1 =
      log ++ (allMarked t).map
        (fun s => Call.decrypt (String.mk (s.data.drop 4)) e.Project) ∧
    (∀ p s, p ≠ [] → t.at p = some (.string s) → HasPrefix s "tfb_vault:" = true →
      ∃ h d, e.Vault.DecryptWithVault h (String.mk (s.data.drop 4)) e.Project = .ok d ∧
        (TraverseAndModify e res false t "" log).1.at p = some (.string d)) ∧
    (∀ p x, t.at p = some x → (p ≠ [] → isMarked x = false) → allMarked x = [] →
      (TraverseAndModify e res false t "" log).1.at p = some x) := by
  have hlog := TraverseAndModify_decrypt_log e res hvault t "" log
  rw [← allMarked_of_isJSON t hjson] at hlog
  refine ⟨by rw [hlog], by rw [hlog], ?_, ?_⟩
  · intro p s hp hs hm
    obtain ⟨h, d, hd, hat⟩ := decrypt_at_marked e res s hm p t "" log hp hs (by rw [hlog])
    rw [TrimPrefix_of_marked s hm] at hd
    exact ⟨h, d, hd, hat⟩
  · intro p x hx hm hbelow
    have hxj : x.isJSON = true := isJSON_at p t x hjson hx
    rw [allMarked_of_isJSON x hxj] at hbelow
    exact walk_keeps_unmarked e res x p t "" log hx hm hbelow

/-- The decrypt walk over the tree
`{"token": "tfb_vault:abc", "note": "tfb_plain", "tags": ["tfb_vault:t0", 1]}`. -/
theorem decrypt_walk_of_json_example :
    markedTree.isJSON = true ∧
    (TraverseAndModify (demo [] echoVault) [] false markedTree "" []).2.1 =
      [] ++ (allMarked markedTree).map
        (fun s => Call.decrypt (String.mk (s.data.drop 4)) (demo [] echoVault).Project) ∧
    (TraverseAndModify (demo [] echoVault) [] false markedTree "" []).1 =
      .map [("token", .string "abc"), ("note", .string "tfb_plain"),
        ("tags", .slice [.string "t0", .float64 "1"])] :=
  ⟨rfl, (decrypt_walk_of_json (demo [] echoVault) [] markedTree [] rfl
    (fun _ _ => ⟨_, rfl⟩)).2.1, rfl⟩

/-- C5 (the code does otherwise): the tree that `GetState` walks in decrypt mode holds the
joined resources as a `[]map[string]interface{}`, which no case of the type switch matches.
With a Vault that decrypts, the walk over
`{"secret": "tfb_vault:abc", "timestamp": ..., "resources": [{"password": "tfb_vault:xyz", ...}]}`
returns no error, replaces `secret` by `abc` and sends Vault that one request: the member
`password`, a string that begins with `tfb_vault:`, keeps its value and no request is made for
it.  The same holds for every typed slice, in both modes. -/
theorem TraverseAndModify_skips_typed_slice :
    allMarked joinedTree = ["tfb_vault:abc", "tfb_vault:xyz"] ∧
    echoVault.DecryptWithVault [.decrypt "vault:abc" "demo"] "vault:xyz" "demo" = .ok "xyz" ∧
    TraverseAndModify (demo [] echoVault) [] false joinedTree "" [] =
      (.map [("secret", .string "abc"), ("timestamp", .string "2024-05-01T10:00:00Z"),
        ("resources", .mapSlice [[("password", .string "tfb_vault:xyz"),
          ("timestamp", .string "2024-05-01T10:00:00Z")]])],
        [.decrypt "vault:abc" "demo"], none) ∧
    (GetState (demo [] echoVault) encryptedCluster []).1 =
      .ret (some (Marshal
        (TraverseAndModify (demo [] echoVault) [] false joinedTree "" []).1), 200, none) ∧
    (∀ (e : Elastic) (res : List Regexp) (enc : Bool) (ms : List GoMap) (path : String)
        (log : List Call),
      TraverseAndModify e res enc (.mapSlice ms) path log = (.mapSlice ms, log, none)) :=
  ⟨rfl, rfl, rfl, rfl, fun _ _ _ _ _ _ => by simp [TraverseAndModify]⟩

/-- C8: for every `StoreState` call that returns `(200, nil)`, whatever the decoded input, the
documents it writes are resource documents in the resource index followed by one snapshot
document in the state index, and each of them has `timestamp` equal to the one clock reading
of the call. -/
theorem StoreState_one_timestamp (e : Elastic) (now : String) (decoded : Except String Value)
    (c c1 : Cluster) (log log1 : List Call)
    (h : StoreState e now decoded c log = (.ret (200, none), c1, log1)) :
    ∃ (resources : List Doc) (snapshot : Doc),
      c1.docs = c.docs ++ resources ++ [snapshot] ∧
      (∀ d ∈ resources, d.index = e.ResourceIndex ∧
        mapIndex d.source "timestamp" = some (.string now)) ∧
      snapshot.index = e.StateIndex ∧
      mapIndex snapshot.source "timestamp" = some (.string now) := by
  obtain ⟨stateData, stateMap, ms, _, _, _, _, hc, _⟩ :=
    StoreState_ok_inv e now decoded c c1 log log1 h
  refine ⟨ms.map (resourceDoc e now), snapshotDoc e now stateMap, ?_, ?_, rfl, ?_⟩
  · rw [hc]
    simp [Cluster.wrote]
  · intro d hd
    obtain ⟨m, _, rfl⟩ := List.mem_map.mp hd
    exact ⟨rfl, timestamp_stamped m now⟩
  · exact timestamp_stamped _ now

/-- Witness for C8: the state `{"serial": 1, "timestamp": "never", "resources": [{"id": "a"}]}`
stored in an empty cluster. -/
theorem StoreState_one_timestamp_witness :
    StoreState (demo [] echoVault) "2024-05-01T10:00:00Z" (.ok stampedState) emptyCluster [] =
      (.ret (200, none),
        ⟨[], [⟨"terraform-resources", none,
            [("id", .string "a"), ("timestamp", .string "2024-05-01T10:00:00Z")]⟩,
          ⟨"terraform-state", none,
            [("serial", .float64 "1"), ("timestamp", .string "2024-05-01T10:00:00Z")]⟩],
          10, []⟩, []) ∧
    ∃ (resources : List Doc) (snapshot : Doc),
      [(⟨"terraform-resources", none,
            [("id", .string "a"), ("timestamp", .string "2024-05-01T10:00:00Z")]⟩ : Doc),
          ⟨"terraform-state", none,
            [("serial", .float64 "1"), ("timestamp", .string "2024-05-01T10:00:00Z")]⟩] =
        emptyCluster.docs ++ resources ++ [snapshot] ∧
      (∀ d ∈ resources, d.index = (demo [] echoVault).ResourceIndex ∧
        mapIndex d.source "timestamp" = some (.string "2024-05-01T10:00:00Z")) ∧
      snapshot.index = (demo [] echoVault).StateIndex ∧
      mapIndex snapshot.source "timestamp" = some (.string "2024-05-01T10:00:00Z") :=
  ⟨rfl, StoreState_one_timestamp (demo [] echoVault) "2024-05-01T10:00:00Z" (.ok stampedState)
    emptyCluster _ [] [] rfl⟩

/-- C9 (the code does otherwise): on the valid JSON input `[]`, whose top-level value is an
array, `StoreState` does not return an error: the unchecked type assertion
`stateData.(map[string]interface{})` panics.  Nothing is written before the panic. -/
theorem StoreState_panics_on_array (e : Elastic) (now : String) (c : Cluster)
    (log : List Call) :
    StoreState e now (.ok (.slice [])) c log =
      (.panic notMap, c, log) :=
  rfl

/-- The other half of C9: when the walked state is an object without an array under
`resources`, `StoreState` returns status 500 with the error `malformed state: missing
resources` and the cluster is as before. -/
theorem StoreState_rejects_missing_resources (e : Elastic) (now : String) (stateData : Value)
    (c : Cluster) (log : List Call) (stateMap : GoMap)
    (hwalk : (TraverseAndModify e e.Encrypt true stateData "" log).1 = .map stateMap)
    (hmissing : ∀ resources, mapIndex stateMap "resources" ≠ some (.slice resources)) :
    (StoreState e now (.ok stateData) c log).1 =
      .ret (500, some "malformed state: missing resources") ∧
    (StoreState e now (.ok stateData) c log).2.1 = c := by
  cases hr : mapIndex stateMap "resources" with
  | none => simp [StoreState, hwalk, hr]
  | some v =>
    cases v with
    | slice resources => exact absurd hr (hmissing resources)
    | nil | bool _ | float64 _ | string _ | map _ | mapSlice _ =>
      simp [StoreState, hwalk, hr]

/-- C10: when the walked state is an object whose `resources` array begins with `k` objects
that the cluster accepts, followed by a resource that is not an object or whose write fails,
`StoreState` returns status 500 with an error, and the documents written are exactly the `k`
resource documents of the earlier resources: they stay in the cluster, and no snapshot document
is written. -/
theorem StoreState_stops_at_failing_resource (e : Elastic) (now : String) (stateData : Value)
    (c : Cluster) (log : List Call) (stateMap : GoMap) (ms : List GoMap) (bad : Value)
    (rest : List Value)
    (hwalk : (TraverseAndModify e e.Encrypt true stateData "" log).1 = .map stateMap)
    (hresources : mapIndex stateMap "resources" = some (.slice (ms.map Value.map ++ bad :: rest)))
    (hearlier : ∀ i, i < ms.length → c.faultAt i = none)
    (hfails : (∀ m, bad ≠ .map m) ∨ c.faultAt ms.length ≠ none) :
    ∃ msg c1 log1,
      StoreState e now (.ok stateData) c log = (.ret (500, some msg), c1, log1) ∧
      c1.docs = c.docs ++ ms.map (resourceDoc e now) ∧
      (∀ d ∈ ms.map (resourceDoc e now), d.index = e.ResourceIndex) := by
  have hloop := storeResources_accepted e now (bad :: rest) ms c hearlier
  obtain ⟨msg, c1, hstop, hdocs⟩ := storeResources_stops e now bad rest
    (c.wrote (ms.map (resourceDoc e now))) (by
      rcases hfails with h | h
      · exact .inl h
      · right
        rw [Cluster.faultAt_wrote]
        simpa using h)
  rw [hstop] at hloop
  refine ⟨msg, c1, (TraverseAndModify e e.Encrypt true stateData "" log).2.1, ?_, ?_, ?_⟩
  · simp only [StoreState, hwalk, hresources, hloop]
  · rw [hdocs]
    rfl
  · intro d hd
    obtain ⟨m, _, rfl⟩ := List.mem_map.mp hd
    rfl

/-- Witness for C10: the state `{"serial": 2, "resources": [{"id": "a"}, 7]}`, whose second
resource is a number. -/
theorem StoreState_stops_at_failing_resource_witness :
    (∀ m, Value.float64 "7" ≠ .map m) ∧
    ∃ msg c1 log1,
      StoreState (demo [] echoVault) "2024-05-01T10:00:00Z" (.ok brokenState) emptyCluster [] =
        (.ret (500, some msg), c1, log1) ∧
      c1.docs = emptyCluster.docs ++
        [[("id", .string "a")]].map (resourceDoc (demo [] echoVault) "2024-05-01T10:00:00Z") ∧
      (∀ d ∈ [[("id", .string "a")]].map (resourceDoc (demo [] echoVault) "2024-05-01T10:00:00Z"),
        d.index = (demo [] echoVault).ResourceIndex) :=
  ⟨by simp, StoreState_stops_at_failing_resource (demo [] echoVault) "2024-05-01T10:00:00Z"
    brokenState emptyCluster []
    [("serial", .float64 "2"), ("resources", .slice [.map [("id", .string "a")], .float64 "7"])]
    [[("id", .string "a")]] (.float64 "7") [] rfl rfl (fun _ _ => rfl) (.inl (by simp))⟩

/-- C6 (the code does otherwise): `GetResources` sends the query
`{"query": {"match": {"timestamp": ts}}}` without a `size`, so the search answers with one
page of hits.  After `StoreState` has stored a state with the eleven resources `r01` to `r11`
in an empty cluster, returning `(200, nil)` and writing eleven resource documents, `GetState`
returns status 200 and no error, and under `resources` the ten resources `r01` to `r10`: the
resource `r11` of the stored state is not in the object returned. -/
theorem StoreState_GetState_loses_resource :
    (StoreState (demo [] echoVault) "2024-05-01T10:00:00Z" (.ok elevenResourcesState)
      emptyCluster []).1 = .ret (200, none) ∧
    ((StoreState (demo [] echoVault) "2024-05-01T10:00:00Z" (.ok elevenResourcesState)
      emptyCluster []).2.1.docs.filter fun d => d.index = "terraform-resources").map
        (fun d => mapIndex d.source "id") =
      [some (.string "r01"), some (.string "r02"), some (.string "r03"), some (.string "r04"),
        some (.string "r05"), some (.string "r06"), some (.string "r07"), some (.string "r08"),
        some (.string "r09"), some (.string "r10"), some (.string "r11")] ∧
    (GetState (demo [] echoVault)
      (StoreState (demo [] echoVault) "2024-05-01T10:00:00Z" (.ok elevenResourcesState)
        emptyCluster []).2.1 []).1 =
      .ret (some (.map [("serial", .float64 "3"),
        ("timestamp", .string "2024-05-01T10:00:00Z"),
        ("resources", stampedResources
          ["r01", "r02", "r03", "r04", "r05", "r06", "r07", "r08", "r09", "r10"]
          "2024-05-01T10:00:00Z")]), 200, none) :=
  ⟨rfl, rfl, rfl⟩

/-- An empty `resources` array does not come back as an array: after `StoreState` has stored
`{"serial": 1, "resources": []}` in an empty cluster, `GetState` returns
`{"serial": 1, "timestamp": ..., "resources": null}`: the nil slice of `GetResources` is
encoded as `null`, not as the array `[]` of the input. -/
theorem StoreState_GetState_empty_resources :
    (StoreState (demo [] echoVault) "2024-05-01T10:00:00Z" (.ok emptyResourcesState)
      emptyCluster []).1 = .ret (200, none) ∧
    (GetState (demo [] echoVault)
      (StoreState (demo [] echoVault) "2024-05-01T10:00:00Z" (.ok emptyResourcesState)
        emptyCluster []).2.1 []).1 =
      .ret (some (.map [("serial", .float64 "1"),
        ("timestamp", .string "2024-05-01T10:00:00Z"), ("resources", .nil)]), 200, none) ∧
    mapIndex [("serial", .float64 "1"), ("resources", .slice [])] "resources"
      ≠ some Value.nil :=
  ⟨rfl, rfl, by simp [mapIndex]⟩

/-- Storing and reading back within one page of hits.  Let `S` be a decoded JSON object with an
array `R` of objects under `resources`, no
field whose path matches a crypto pattern and, outside `resources`, no string that begins
with `tfb_vault:`; let
the state index and the resource index be different, every document already in the cluster
carry an earlier timestamp than the clock reading of the call, which itself does not begin
with `tfb_vault:`, every request be answered, and `R` have no more elements than a search
returns.  Then `StoreState(S)` returns `(200, nil)` and `GetState` on the resulting cluster
returns status 200 and an object that has the members of `S` other than `resources` and
`timestamp` unchanged, `timestamp` equal to the clock reading, and under `resources` the
elements of `R` in some order, each with `timestamp` set to the clock reading, as an array,
or `null` when `R` is empty. -/
theorem StoreState_GetState_within_page (e : Elastic) (now : String) (s : GoMap)
    (ms : List GoMap) (c : Cluster) (log : List Call)
    (hindices : e.StateIndex ≠ e.ResourceIndex)
    (hjson : isJSONMap s = true)
    (hresources : mapIndex s "resources" = some (.slice (ms.map Value.map)))
    (hquiet : quiet e.Encrypt (.map s) "" = true)
    (hplain : allMarkedMap (mapDelete s "resources") = [])
    (hnow : HasPrefix now "tfb_vault:" = false)
    (hold : ∀ d ∈ c.docs, ∀ t, timestampOf d.source = some t → strLt t now = true)
    (hfaults : ∀ i, i < ms.length + 3 → c.faultAt i = none)
    (hpage : ms.length ≤ c.pageSize) :
    (StoreState e now (.ok (.map s)) c log).1 = .ret (200, none) ∧
    ∃ (out : GoMap) (returned : List GoMap),
      (GetState e (StoreState e now (.ok (.map s)) c log).2.1
        (StoreState e now (.ok (.map s)) c log).2.2).1 = .ret (some (.map out), 200, none) ∧
      (∀ k, k ≠ "resources" → k ≠ "timestamp" → mapIndex out k = mapIndex s k) ∧
      mapIndex out "timestamp" = some (.string now) ∧
      mapIndex out "resources" = some (jsonDocs returned) ∧
      returned.Perm (ms.map fun m => mapAssign m "timestamp" (.string now)) := by
  -- storing
  have hwalk := TraverseAndModify_quiet e e.Encrypt (.map s) "" log hquiet
  have hstore := StoreState_ok e now (.map s) c log s ms (by rw [hwalk]) hresources
    (fun i hi => hfaults i (by omega))
  rw [hwalk] at hstore
  rw [hstore]
  refine ⟨rfl, ?_⟩
  -- the documents are JSON already
  have hms : ∀ m ∈ ms, isJSONMap m = true :=
    isJSONMap_of_mem ms (by
      simpa [Value.isJSON] using isJSON_mapIndex s "resources" _ hjson hresources)
  have hsnap : (snapshotDoc e now s).source =
      mapAssign (mapDelete s "resources") "timestamp" (.string now) :=
    marshalMap_of_isJSON _
      (isJSONMap_mapAssign _ _ _ (isJSONMap_mapDelete s _ hjson) rfl)
  have hsources : (ms.map fun m => (resourceDoc e now m).source) =
      ms.map fun m => mapAssign m "timestamp" (.string now) := by
    apply List.map_congr_left
    intro m hm
    exact marshalMap_of_isJSON _ (isJSONMap_mapAssign _ _ _ (hms m hm) rfl)
  -- reading
  have hget := GetState_after_StoreState e now c s ms log hindices hold
    (fun i hi => by
      rw [Cluster.faultAt_wrote]
      exact hfaults _ (by simp; omega))
    hpage
  rw [hsnap, hsources] at hget
  -- nothing is marked, so the walk in decrypt mode changes nothing
  have hmarked : markedMap (mapDelete s "resources") = [] := by
    rw [← allMarkedMap_of_isJSON _ (isJSONMap_mapDelete s _ hjson)]; exact hplain
  have hmerged : markedMap (mapAssign
      (mapAssign (mapDelete s "resources") "timestamp" (.string now)) "resources"
      (.mapSlice (ms.map fun m => mapAssign m "timestamp" (.string now)))) = [] :=
    markedMap_mapAssign _ _ _
      (markedMap_mapAssign _ _ _ hmarked (by simpa [isMarked] using hnow) rfl) rfl rfl
  rw [TraverseAndModify_unmarked e e.Encrypt _ "" log (by simpa [marked] using hmerged)]
    at hget
  simp only [Marshal] at hget
  refine ⟨_, ms.map fun m => mapAssign m "timestamp" (.string now), hget, ?_, ?_, ?_,
    List.Perm.refl _⟩
  · intro k hk1 hk2
    rw [mapIndex_marshalMap, mapIndex_mapAssign_other _ _ _ _ (Ne.symm hk1),
      mapIndex_mapAssign_other _ _ _ _ (Ne.symm hk2),
      mapIndex_mapDelete_other _ _ _ (Ne.symm hk1)]
    cases hx : mapIndex s k with
    | none => rfl
    | some x => simp [Marshal_of_isJSON x (isJSON_mapIndex s k x hjson hx)]
  · rw [mapIndex_marshalMap, mapIndex_mapAssign_other _ _ _ _ (by decide),
      mapIndex_mapAssign_self]
    rfl
  · rw [mapIndex_marshalMap, mapIndex_mapAssign_self]
    simp only [Option.map_some', Option.some.injEq]
    apply Marshal_mapSlice_docs
    intro m hm
    obtain ⟨m0, hm0, rfl⟩ := List.mem_map.mp hm
    exact isJSONMap_mapAssign _ _ _ (hms m0 hm0) rfl

/-- Storing and reading back the state `{"serial": 7, "resources": [{"id": "a"}]}` in an
empty cluster. -/
theorem StoreState_GetState_within_page_example :
    (GetState (demo [exactly ".secret"] echoVault)
      (StoreState (demo [exactly ".secret"] echoVault) "2024-05-01T10:00:00Z"
        (.ok (oneResourceState "7" "a")) emptyCluster []).2.1 []).1 =
      .ret (some (.map [("serial", .float64 "7"),
        ("timestamp", .string "2024-05-01T10:00:00Z"),
        ("resources", .slice [.map [("id", .string "a"),
          ("timestamp", .string "2024-05-01T10:00:00Z")]])]), 200, none) ∧
    (StoreState (demo [exactly ".secret"] echoVault) "2024-05-01T10:00:00Z"
        (.ok (oneResourceState "7" "a")) emptyCluster []).1 = .ret (200, none) :=
  ⟨rfl, (StoreState_GetState_within_page (demo [exactly ".secret"] echoVault)
    "2024-05-01T10:00:00Z"
    [("serial", .float64 "7"), ("resources", .slice [.map [("id", .string "a")]])]
    [[("id", .string "a")]] emptyCluster [] (by decide) rfl rfl rfl rfl rfl
    (fun d hd => by simp [emptyCluster] at hd) (fun _ _ => rfl) (by decide)).1⟩

/-- C7 (the code does otherwise): after two `StoreState` calls one second apart that both
return `(200, nil)`, the first with the resource `a` and the last with the eleven resources
`r01` to `r11`, the cluster holds the eleven resource documents of the last call, and
`GetState` returns under `resources` ten of them, `r01` to `r10`, with status 200 and no error:
the search for the resources of a timestamp names no `size` and is answered with one page of
hits. -/
theorem GetState_truncates_resources :
    (storeAll (demo [] echoVault)
      [("2024-05-01T10:00:00Z", oneResourceState "1" "a"),
        ("2024-05-01T10:00:01Z", elevenResourcesState)] emptyCluster []).isSome = true ∧
    (match storeAll (demo [] echoVault)
      [("2024-05-01T10:00:00Z", oneResourceState "1" "a"),
        ("2024-05-01T10:00:01Z", elevenResourcesState)] emptyCluster [] with
    | some (c, _) =>
      ((c.docs.filter fun d => d.index = "terraform-resources" ∧
        timestampOf d.source = some "2024-05-01T10:00:01Z").map
          fun d => mapIndex d.source "id")
    | none => []) =
      [some (.string "r01"), some (.string "r02"), some (.string "r03"), some (.string "r04"),
        some (.string "r05"), some (.string "r06"), some (.string "r07"), some (.string "r08"),
        some (.string "r09"), some (.string "r10"), some (.string "r11")] ∧
    (match storeAll (demo [] echoVault)
      [("2024-05-01T10:00:00Z", oneResourceState "1" "a"),
        ("2024-05-01T10:00:01Z", elevenResourcesState)] emptyCluster [] with
    | some (c, log) =>
      match (GetState (demo [] echoVault) c log).1 with
      | .ret (some (.map out), 200, none) => mapIndex out "resources"
      | _ => none
    | none => none) =
      some (stampedResources
        ["r01", "r02", "r03", "r04", "r05", "r06", "r07", "r08", "r09", "r10"]
        "2024-05-01T10:00:01Z") :=
  ⟨rfl, rfl, rfl⟩

/-- Two calls that read the same clock value share their resources: after two successful
`StoreState` calls in the same second, the first with the resource `{"id": "a"}` and the last
with the resource `{"id": "b"}`, `GetState` returns both resources, so also the one written by
the earlier call. -/
theorem GetState_same_second :
    (storeAll (demo [] echoVault)
      [("2024-05-01T10:00:00Z", oneResourceState "1" "a"),
        ("2024-05-01T10:00:00Z", oneResourceState "2" "b")] emptyCluster []).isSome = true ∧
    (match storeAll (demo [] echoVault)
      [("2024-05-01T10:00:00Z", oneResourceState "1" "a"),
        ("2024-05-01T10:00:00Z", oneResourceState "2" "b")] emptyCluster [] with
    | some (c, log) =>
      match (GetState (demo [] echoVault) c log).1 with
      | .ret (some (.map out), _, _) => mapIndex out "resources"
      | _ => none
    | none => none) =
      some (.slice [
        .map [("id", .string "a"), ("timestamp", .string "2024-05-01T10:00:00Z")],
        .map [("id", .string "b"), ("timestamp", .string "2024-05-01T10:00:00Z")]]) :=
  ⟨rfl, rfl⟩

/-- The join within one page of hits: start from a cluster without documents and make a
sequence of `StoreState` calls that all return `(200, nil)`, the last with a clock reading
later than those of all
earlier calls, with the state index different from the resource index.  The last call writes
resource documents `written` and one snapshot document; when the two searches of `GetState`
are answered and `written` has no more elements than a search returns, `GetState` returns
status 200 and under `resources` exactly the documents `written`, in some order (`null` when
there are none), so no resource document of an earlier call. -/
theorem GetState_last_resources_within_page (e : Elastic) (earlier : List (String × Value))
    (now : String) (body : Value) (c0 c1 c2 : Cluster) (log0 log1 log2 : List Call)
    (hindices : e.StateIndex ≠ e.ResourceIndex)
    (hempty : c0.docs = [])
    (hearlier : storeAll e earlier c0 log0 = some (c1, log1))
    (hlast : StoreState e now (.ok body) c1 log1 = (.ret (200, none), c2, log2))
    (hlater : ∀ call ∈ earlier, strLt call.1 now = true)
    (hsearch : c2.faultAt 0 = none ∧ c2.faultAt 1 = none) :
    ∃ (written : List GoMap) (snapshot : Doc),
      c2.docs = c1.docs ++ written.map (fun m => ⟨e.ResourceIndex, none, m⟩) ++ [snapshot] ∧
      snapshot.index = e.StateIndex ∧
      (written.length ≤ c2.pageSize →
        ∃ (out : GoMap) (returned : List GoMap),
          (GetState e c2 log2).1 = .ret (some (.map out), 200, none) ∧
          mapIndex out "resources" = some (jsonDocs returned) ∧
          returned.Perm written) := by
  obtain ⟨stateData, stateMap, ms, _, _, _, _, hc, _⟩ :=
    StoreState_ok_inv e now _ c1 c2 log1 log2 hlast
  have hold : ∀ d ∈ c1.docs, ∀ t, timestampOf d.source = some t → strLt t now = true := by
    intro d hd t ht
    rcases storeAll_stamps e earlier c0 c1 log0 log1 hearlier d hd with h0 | ⟨call, hcall, hts⟩
    · rw [hempty] at h0
      exact absurd h0 (by simp)
    · rw [ht] at hts
      simp only [Option.some.injEq] at hts
      rw [hts]
      exact hlater call hcall
  refine ⟨ms.map fun m => (resourceDoc e now m).source, snapshotDoc e now stateMap, ?_, rfl, ?_⟩
  · rw [hc]
    simp [Cluster.wrote, resourceDoc]
  · intro hpage
    have hget := GetState_after_StoreState e now c1 stateMap ms log2 hindices hold
      (fun i hi => by
        rw [← hc]
        rcases hsearch with ⟨h0, h1⟩
        have : i = 0 ∨ i = 1 := by omega
        rcases this with rfl | rfl
        · exact h0
        · exact h1)
      (by
        have hsize : c2.pageSize = c1.pageSize := by rw [hc]; rfl
        simpa [hsize] using hpage)
    rw [← hc] at hget
    -- the walk in decrypt mode leaves the slice of resources alone
    have hframe := walk_keeps_unmarked e e.Encrypt
      (.mapSlice (ms.map fun m => (resourceDoc e now m).source)) [.key "resources"]
      (.map (mapAssign (snapshotDoc e now stateMap).source "resources"
        (.mapSlice (ms.map fun m => (resourceDoc e now m).source)))) "" log2
      (by rw [at_key, mapIndex_mapAssign_self]) (fun _ => rfl) rfl
    generalize TraverseAndModify e e.Encrypt false
      (.map (mapAssign (snapshotDoc e now stateMap).source "resources"
        (.mapSlice (ms.map fun m => (resourceDoc e now m).source)))) "" log2 = walked
      at hget hframe
    obtain ⟨w, wl, we⟩ := walked
    cases w with
    | map out0 =>
      refine ⟨marshalMap out0, ms.map fun m => (resourceDoc e now m).source, ?_, ?_,
        List.Perm.refl _⟩
      · simpa [Marshal] using hget
      · have hres : mapIndex out0 "resources" =
            some (.mapSlice (ms.map fun m => (resourceDoc e now m).source)) := by
          rw [← at_key]; exact hframe
        rw [mapIndex_marshalMap, hres]
        simp only [Option.map_some', Option.some.injEq]
        apply Marshal_mapSlice_docs
        intro m hm
        obtain ⟨m0, _, rfl⟩ := List.mem_map.mp hm
        exact marshalMap_isJSON _
    | nil | bool _ | float64 _ | string _ | slice _ | mapSlice _ =>
      simp [Value.at, Value.child] at hframe

/-- Two calls one second apart, the first with the resource `{"id": "a"}`, the last with the
resource `{"id": "b"}`: `GetState` returns the resource `b` only. -/
theorem GetState_last_resources_within_page_example :
    StoreState (demo [] echoVault) "2024-05-01T10:00:01Z" (.ok (oneResourceState "2" "b"))
      (StoreState (demo [] echoVault) "2024-05-01T10:00:00Z" (.ok (oneResourceState "1" "a"))
        emptyCluster []).2.1 [] =
      (.ret (200, none), (StoreState (demo [] echoVault) "2024-05-01T10:00:01Z"
        (.ok (oneResourceState "2" "b")) (StoreState (demo [] echoVault) "2024-05-01T10:00:00Z"
          (.ok (oneResourceState "1" "a")) emptyCluster []).2.1 []).2.1, []) ∧
    (GetState (demo [] echoVault) (StoreState (demo [] echoVault) "2024-05-01T10:00:01Z"
        (.ok (oneResourceState "2" "b")) (StoreState (demo [] echoVault) "2024-05-01T10:00:00Z"
          (.ok (oneResourceState "1" "a")) emptyCluster []).2.1 []).2.1 []).1 =
      .ret (some (.map [("serial", .float64 "2"),
        ("timestamp", .string "2024-05-01T10:00:01Z"),
        ("resources", .slice [.map [("id", .string "b"),
          ("timestamp", .string "2024-05-01T10:00:01Z")]])]), 200, none) ∧
    ∃ (written : List GoMap) (snapshot : Doc),
      (StoreState (demo [] echoVault) "2024-05-01T10:00:01Z"
        (.ok (oneResourceState "2" "b")) (StoreState (demo [] echoVault) "2024-05-01T10:00:00Z"
          (.ok (oneResourceState "1" "a")) emptyCluster []).2.1 []).2.1.docs =
        (StoreState (demo [] echoVault) "2024-05-01T10:00:00Z"
          (.ok (oneResourceState "1" "a")) emptyCluster []).2.1.docs ++
          written.map (fun m => ⟨(demo [] echoVault).ResourceIndex, none, m⟩) ++ [snapshot] ∧
      snapshot.index = (demo [] echoVault).StateIndex ∧
      (written.length ≤ 10 →
        ∃ (out : GoMap) (returned : List GoMap),
          (GetState (demo [] echoVault) (StoreState (demo [] echoVault) "2024-05-01T10:00:01Z"
            (.ok (oneResourceState "2" "b")) (StoreState (demo [] echoVault)
              "2024-05-01T10:00:00Z" (.ok (oneResourceState "1" "a"))
                emptyCluster []).2.1 []).2.1 []).1 = .ret (some (.map out), 200, none) ∧
          mapIndex out "resources" = some (jsonDocs returned) ∧
          returned.Perm written) :=
  ⟨rfl, rfl, GetState_last_resources_within_page (demo [] echoVault)
    [("2024-05-01T10:00:00Z", oneResourceState "1" "a")] "2024-05-01T10:00:01Z"
    (oneResourceState "2" "b") emptyCluster _ _ [] [] [] (by decide) rfl rfl rfl
    (fun call hcall => by
      simp only [List.mem_singleton] at hcall
      subst hcall
      decide)
    ⟨rfl, rfl⟩⟩

/-- C11 (the code does otherwise): when the search of the state index is answered with
status 200 and an empty hit list, `GetState` does not return a NotFound error: `source` stays
the nil map and the assignment `source["resources"] = resources` panics. -/
theorem GetState_panics_on_empty_hits :
    (emptyStateIndex.Search "terraform-state" .latest).1 =
      .ok ⟨200, .map [("hits", .map [("hits", .slice [])])]⟩ ∧
    (GetState (demo [] echoVault) emptyStateIndex []).1 =
      .panic "assignment to entry in nil map" :=
  ⟨rfl, rfl⟩

/-- The other half of C11: when the search of the state index is answered with an error
status, as it is when the index does not exist, `GetState` returns no body, status 404 and the
error `state not found`. -/
theorem GetState_not_found (e : Elastic) (c c1 : Cluster) (log : List Call) (res : Response)
    (hsearch : c.Search e.StateIndex .latest = (.ok res, c1))
    (hstatus : res.IsError = true) :
    (GetState e c log).1 = .ret (none, 404, some "state not found") := by
  simp [GetState, hsearch, hstatus]

/-- C12 (the code does otherwise): the latest snapshot holds `tfb_vault:abc` under `secret`
and Vault refuses the decrypt request; the walk returns the error, but `GetState` does not read
it and returns status 200 with the still encrypted value.  The string `tfb_vault:xyz` in the
joined resource is never sent to Vault, so it comes back encrypted even from a Vault that
decrypts. -/
theorem GetState_drops_decrypt_error :
    (TraverseAndModify (demo [] sealedVault) [] false
      (.map [("secret", .string "tfb_vault:abc")]) "" []).2.2 = some "Vault is sealed" ∧
    (GetState (demo [] sealedVault) encryptedCluster []).1 =
      .ret (some (.map [("secret", .string "tfb_vault:abc"),
        ("timestamp", .string "2024-05-01T10:00:00Z"),
        ("resources", .slice [.map [("password", .string "tfb_vault:xyz"),
          ("timestamp", .string "2024-05-01T10:00:00Z")]])]), 200, none) ∧
    (GetState (demo [] sealedVault) encryptedCluster []).2.2 = [.decrypt "vault:abc" "demo"] ∧
    (GetState (demo [] echoVault) encryptedCluster []).1 =
      .ret (some (.map [("secret", .string "abc"),
        ("timestamp", .string "2024-05-01T10:00:00Z"),
        ("resources", .slice [.map [("password", .string "tfb_vault:xyz"),
          ("timestamp", .string "2024-05-01T10:00:00Z")]])]), 200, none) ∧
    (GetState (demo [] echoVault) encryptedCluster []).2.2 = [.decrypt "vault:abc" "demo"] :=
  ⟨rfl, rfl, rfl, rfl, rfl⟩

/-- C13: starting from a cluster without a lock document for project `p` that answers the next
four requests, for all holders `a` and `b`: `AcquireLock(p, a)` returns `(true, nil)`, then
`AcquireLock(p, b)` returns `(false, nil)`, then `ReleaseLock(p)` returns `(true, nil)`, then
`AcquireLock(p, b)` returns `(true, nil)`.  A project has a name: `p` is the segment
`project` of the route `/state/{project}`, which is never empty. -/
theorem lock_exclusivity (p a b : String) (c : Cluster)
    (hp : p ≠ "")
    (hfree : c.hasDoc lockIndex p = false)
    (hanswered : ∀ i, i < 4 → c.faultAt i = none) :
    (AcquireLock p a c).1 = .ret (true, none) ∧
    (AcquireLock p b (AcquireLock p a c).2).1 = .ret (false, none) ∧
    (ReleaseLock p (AcquireLock p b (AcquireLock p a c).2).2).1 = .ret (true, none) ∧
    (AcquireLock p b (ReleaseLock p (AcquireLock p b (AcquireLock p a c).2).2).2).1 =
      .ret (true, none) := by
  have h1 := AcquireLock_free p a c hp (hanswered 0 (by omega)) hfree
  rw [h1]
  generalize hc1 : ({ c.next with docs := c.docs ++ [⟨lockIndex, some p, lockBody p a⟩] }
    : Cluster) = c1
  have hf1 : ∀ i, c1.faultAt i = c.faultAt (i + 1) := by
    intro i; rw [← hc1]; exact c.faultAt_next i
  have hheld1 : c1.hasDoc lockIndex p = true := by
    rw [← hc1]; exact hasDoc_append_self c.docs lockIndex p _
  have h2 := AcquireLock_held p b c1 hp (by rw [hf1]; exact hanswered 1 (by omega)) hheld1
  rw [h2]
  generalize hc2 : ({ c1.next with docs := c1.docs.map fun d =>
    if d.index = lockIndex ∧ d.id = some p then ⟨lockIndex, some p, lockBody p b⟩ else d }
    : Cluster) = c2
  have hf2 : ∀ i, c2.faultAt i = c1.faultAt (i + 1) := by
    intro i; rw [← hc2]; exact c1.faultAt_next i
  have hheld2 : c2.hasDoc lockIndex p = true := by
    rw [← hc2]
    exact (hasDoc_replace c1.docs lockIndex p _).trans hheld1
  have h3 := ReleaseLock_held p c2 (by rw [hf2, hf1]; exact hanswered 2 (by omega)) hheld2
  rw [h3]
  generalize hc3 : ({ c2.next with docs := c2.docs.filter fun d =>
    ¬ (d.index = lockIndex ∧ d.id = some p) } : Cluster) = c3
  have hf3 : ∀ i, c3.faultAt i = c2.faultAt (i + 1) := by
    intro i; rw [← hc3]; exact c2.faultAt_next i
  have hfree3 : c3.hasDoc lockIndex p = false := by
    rw [← hc3]; exact hasDoc_delete c2.docs lockIndex p
  have h4 := AcquireLock_free p b c3 hp
    (by rw [hf3, hf2, hf1]; exact hanswered 3 (by omega)) hfree3
  rw [h4]
  exact ⟨rfl, rfl, rfl, rfl⟩

/-- Witness for C13: project `demo` on a cluster without documents. -/
theorem lock_exclusivity_witness :
    "demo" ≠ "" ∧
    emptyCluster.hasDoc lockIndex "demo" = false ∧
    (AcquireLock "demo" "10.0.0.1:40000" emptyCluster).1 = .ret (true, none) ∧
    (AcquireLock "demo" "10.0.0.2:50000"
      (AcquireLock "demo" "10.0.0.1:40000" emptyCluster).2).1 = .ret (false, none) ∧
    (ReleaseLock "demo" (AcquireLock "demo" "10.0.0.2:50000"
      (AcquireLock "demo" "10.0.0.1:40000" emptyCluster).2).2).1 = .ret (true, none) ∧
    (AcquireLock "demo" "10.0.0.2:50000" (ReleaseLock "demo" (AcquireLock "demo"
      "10.0.0.2:50000" (AcquireLock "demo" "10.0.0.1:40000" emptyCluster).2).2).2).1 =
      .ret (true, none) :=
  ⟨by decide, rfl,
    lock_exclusivity "demo" "10.0.0.1:40000" "10.0.0.2:50000" emptyCluster (by decide) rfl
      (fun _ _ => rfl)⟩

/-- C14 (the code does otherwise): the lock document of project `demo` has
`lockedBy = 10.0.0.1:40000`; `AcquireLock` for the caller `10.0.0.2:50000` returns
`(false, nil)` and the lock document now has `lockedBy = 10.0.0.2:50000`.  The request names
the document id and no `op_type`, so it is an index request, which replaces the document. -/
theorem AcquireLock_overwrites_lock :
    (AcquireLock "demo" "10.0.0.1:40000" emptyCluster).2.docs =
      [⟨lockIndex, some "demo", [("project", .string "demo"),
        ("lockedBy", .string "10.0.0.1:40000"), ("version", .float64 "0")]⟩] ∧
    AcquireLock "demo" "10.0.0.2:50000" (AcquireLock "demo" "10.0.0.1:40000" emptyCluster).2 =
      (.ret (false, none),
        ⟨[], [⟨lockIndex, some "demo", [("project", .string "demo"),
          ("lockedBy", .string "10.0.0.2:50000"), ("version", .float64 "0")]⟩], 10, []⟩) :=
  ⟨rfl, rfl⟩

/-- What C14 describes is a `create` request: it leaves the documents as they are and is
answered with status 409, for which the lines after the call return `(false, nil)`. -/
theorem create_request_keeps_lock (p b : String) (c : Cluster) (hp : p ≠ "")
    (hanswered : c.faultAt 0 = none) (hheld : c.hasDoc lockIndex p = true) :
    (c.IndexWithID lockIndex p .create (lockBody p b)).2.docs = c.docs ∧
    acquireAfter (clientResult (c.IndexWithID lockIndex p .create (lockBody p b)).1).1
      (clientResult (c.IndexWithID lockIndex p .create (lockBody p b)).1).2 =
        .ret (false, none) := by
  rw [Cluster.IndexWithID_conflict c _ _ _ hp hanswered hheld]
  exact ⟨rfl, rfl⟩

/-- C15 (the code does otherwise): when the insert is answered with status 500, `AcquireLock`
returns `(false, nil)`, without an error, as it does for every status other than 201; and when
the request gets no answer, the client returns a nil response with the error and
`defer res.Body.Close()` panics before the error is looked at. -/
theorem AcquireLock_hides_failure :
    (AcquireLock "demo" "10.0.0.1:40000" failingCluster).1 = .ret (false, none) ∧
    (AcquireLock "demo" "10.0.0.1:40000" unreachableCluster).1 = .panic nilResponse ∧
    (∀ (status : Nat) (body : Value), status ≠ 201 →
      acquireAfter (some ⟨status, body⟩) none = .ret (false, none)) :=
  ⟨rfl, rfl, fun status body h => by simp [acquireAfter, h]⟩

/-- C16: for every project `p`, the lines of `ReleaseLock` after the call return `(true, nil)`
for a response with status 200 (deleted) and `(false, nil)` for a response with status 404
(not found); on a cluster that answers the request, `ReleaseLock(p)` returns `(true, nil)` when
there is a lock document for `p`, which is gone afterwards, and `(false, nil)` when there is
none, with the documents as before. -/
theorem ReleaseLock_reports (p : String) (c : Cluster) (hanswered : c.faultAt 0 = none) :
    (∀ body, releaseAfter (some ⟨200, body⟩) none = .ret (true, none)) ∧
    (∀ body, releaseAfter (some ⟨404, body⟩) none = .ret (false, none)) ∧
    (c.hasDoc lockIndex p = true →
      (ReleaseLock p c).1 = .ret (true, none) ∧
      (ReleaseLock p c).2.hasDoc lockIndex p = false) ∧
    (c.hasDoc lockIndex p = false →
      (ReleaseLock p c).1 = .ret (false, none) ∧ (ReleaseLock p c).2.docs = c.docs) := by
  refine ⟨fun _ => rfl, fun _ => rfl, ?_, ?_⟩
  · intro hheld
    rw [ReleaseLock_held p c hanswered hheld]
    exact ⟨rfl, hasDoc_delete c.docs lockIndex p⟩
  · intro hfree
    rw [ReleaseLock_free p c hanswered hfree]
    exact ⟨rfl, rfl⟩

/-- Witness for C16: project `demo` without a lock, and with the lock of `10.0.0.1:40000`. -/
theorem ReleaseLock_reports_witness :
    emptyCluster.faultAt 0 = none ∧
    ((ReleaseLock "demo" emptyCluster).1 = .ret (false, none) ∧
      (ReleaseLock "demo" emptyCluster).2.docs = emptyCluster.docs) ∧
    ((ReleaseLock "demo" (AcquireLock "demo" "10.0.0.1:40000" emptyCluster).2).1 =
        .ret (true, none) ∧
      (ReleaseLock "demo" (AcquireLock "demo" "10.0.0.1:40000" emptyCluster).2).2.hasDoc
        lockIndex "demo" = false) :=
  ⟨rfl, (ReleaseLock_reports "demo" emptyCluster rfl).2.2.2 rfl,
    (ReleaseLock_reports "demo" (AcquireLock "demo" "10.0.0.1:40000" emptyCluster).2
      rfl).2.2.1 rfl⟩

/-- C17: for every tree and every pattern list, when `TraverseAndModify` in encrypt mode
returns no error, the requests it sent to Vault are exactly one for each node below the root
whose path, the concatenation from the empty string of `.key` for each object key and
`[index]` for each array index on the way to it, is matched by some pattern.  For a node none
of whose ancestors has a matched path, the slot of the node is replaced exactly when some
pattern matches that path, and otherwise the node is walked with that path as current path.
Field `x` has the path `.x`, nested `a.b` the path `.a.b`, element 2 of `tags` the path
`.tags[2]`.  The root itself is not tested. -/
theorem walk_tests_concatenated_paths (e : Elastic) (res : List Regexp) (t : Value)
    (log : List Call)
    (hok : (TraverseAndModify e res true t "" log).2.2 = none) :
    (TraverseAndModify e res true t "" log).2.1 =
      log ++ ((nodesBelow t).filter fun n => matchesAny res (pathOf "" n.1)).map
        (fun n => Call.encrypt (Sprint n.2) e.Project) ∧
    (∀ p x, p ≠ [] → t.at p = some x →
      (∀ q, q <+: p → q ≠ [] → q ≠ p → matchesAny res (pathOf "" q) = false) →
      (matchesAny res (pathOf "" p) = true →
        ∃ h ct, e.Vault.EncryptWithVault h (Sprint x) e.Project = .ok ct ∧
          (TraverseAndModify e res true t "" log).1.at p = some (.string ("tfb_" ++ ct))) ∧
      (matchesAny res (pathOf "" p) = false →
        ∃ log1, (TraverseAndModify e res true t "" log).1.at p =
          some (TraverseAndModify e res true x (pathOf "" p) log1).1)) ∧
    pathOf "" [.key "x"] = ".x" ∧
    pathOf "" [.key "a", .key "b"] = ".a.b" ∧
    pathOf "" [.key "tags", .index 2] = ".tags[2]" := by
  refine ⟨TraverseAndModify_encrypt_log e res t "" log hok, ?_, by decide, by decide, by decide⟩
  intro p x hp hx hanc
  refine ⟨fun hm => encrypt_at_matched e res x p t "" log hp hx hm hanc hok, fun hm => ?_⟩
  apply walk_descends e res x p t "" log hp hx _ hok
  intro q hq hne
  by_cases hqp : q = p
  · rw [hqp]; exact hm
  · exact hanc q hq hne hqp

/-- Witness for C17: the tree `{"tags": ["a", "b", "c"], "a": {"b": 1}, "x": true}` with
the patterns `^\.tags\[2\]$` and `^\.a\.b$`. -/
theorem walk_tests_concatenated_paths_witness :
    (TraverseAndModify (demo [] echoVault) [exactly ".tags[2]", exactly ".a.b"] true
      sampleTree "" []).1 =
      .map [("tags", .slice [.string "a", .string "b", .string "tfb_vault:c"]),
        ("a", .map [("b", .string "tfb_vault:1")]), ("x", .bool true)] ∧
    (TraverseAndModify (demo [] echoVault) [exactly ".tags[2]", exactly ".a.b"] true
      sampleTree "" []).2.1 =
      [] ++ ((nodesBelow sampleTree).filter fun n =>
        matchesAny [exactly ".tags[2]", exactly ".a.b"] (pathOf "" n.1)).map
        (fun n => Call.encrypt (Sprint n.2) (demo [] echoVault).Project) ∧
    ((nodesBelow sampleTree).filter fun n =>
        matchesAny [exactly ".tags[2]", exactly ".a.b"] (pathOf "" n.1)).map
        (fun n => Call.encrypt (Sprint n.2) (demo [] echoVault).Project) =
      [.encrypt "c" "demo", .encrypt "1" "demo"] :=
  ⟨rfl, (walk_tests_concatenated_paths (demo [] echoVault)
    [exactly ".tags[2]", exactly ".a.b"] sampleTree [] rfl).1, rfl⟩

/-- C18: for every child whose path matches one or more patterns, the encrypt branch of
`TraverseAndModify` sends Vault exactly one request, whatever the number of patterns that
match: to encrypt the text `fmt.Sprint(val)` of the child's original value under the project
key; when Vault answers with a ciphertext, `tfb_` followed by that ciphertext is assigned to
the child's slot, and when Vault answers with an error, nothing is assigned and the error is
returned.  In a walk that returns no error the requests are one for each node whose path is
matched, and the slot of a matched child none of whose ancestors is matched holds `tfb_`
followed by an answer of Vault for the text of the child's original value. -/
theorem encrypts_matched_child_once (e : Elastic) (res : List Regexp) (val : Value)
    (newPath : String) (log : List Call)
    (hmatch : matchesAny res newPath = true) :
    (childStep e res true val newPath log).2.1 =
      log ++ [Call.encrypt (Sprint val) e.Project] ∧
    (∀ ct, e.Vault.EncryptWithVault log (Sprint val) e.Project = .ok ct →
      childStep e res true val newPath log =
        (some (.string ("tfb_" ++ ct)), log ++ [Call.encrypt (Sprint val) e.Project], none)) ∧
    (∀ err, e.Vault.EncryptWithVault log (Sprint val) e.Project = .error err →
      childStep e res true val newPath log =
        (none, log ++ [Call.encrypt (Sprint val) e.Project], some err)) ∧
    (∀ t log0, (TraverseAndModify e res true t "" log0).2.2 = none →
      (TraverseAndModify e res true t "" log0).2.1 =
        log0 ++ ((nodesBelow t).filter fun n => matchesAny res (pathOf "" n.1)).map
          (fun n => Call.encrypt (Sprint n.2) e.Project) ∧
      ∀ p, p ≠ [] → t.at p = some val → pathOf "" p = newPath →
        (∀ q, q <+: p → q ≠ [] → q ≠ p → matchesAny res (pathOf "" q) = false) →
        ∃ h ct, e.Vault.EncryptWithVault h (Sprint val) e.Project = .ok ct ∧
          (TraverseAndModify e res true t "" log0).1.at p = some (.string ("tfb_" ++ ct))) := by
  have hstep := encryptChild_match e val newPath res log hmatch
  refine ⟨?_, ?_, ?_, ?_⟩
  · simp only [childStep, if_true, hstep]
    cases e.Vault.EncryptWithVault log (Sprint val) e.Project <;> rfl
  · intro ct hct
    simp only [childStep, if_true, hstep, hct]
  · intro err herr
    simp only [childStep, if_true, hstep, herr]
  · intro t log0 hok
    refine ⟨TraverseAndModify_encrypt_log e res t "" log0 hok, ?_⟩
    intro p hp hx hpath hanc
    exact encrypt_at_matched e res val p t "" log0 hp hx (by rw [hpath]; exact hmatch) hanc hok

/-- Witness for C18: the child `secret` of `{"secret": "hunter2", "resources": []}` with three
patterns, two of which match its path. -/
theorem encrypts_matched_child_once_witness :
    matchesAny [containing ".sec", exactly ".resources[0]", exactly ".secret"] ".secret"
      = true ∧
    (childStep (demo [] echoVault)
      [containing ".sec", exactly ".resources[0]", exactly ".secret"] true
      (.string "hunter2") ".secret" []).2.1 = [] ++ [Call.encrypt "hunter2" "demo"] ∧
    (TraverseAndModify (demo [] echoVault)
      [containing ".sec", exactly ".resources[0]", exactly ".secret"] true
      (secretState "hunter2") "" []) =
      (.map [("secret", .string "tfb_vault:hunter2"), ("resources", .slice [])],
        [.encrypt "hunter2" "demo"], none) :=
  ⟨rfl, (encrypts_matched_child_once (demo [] echoVault)
    [containing ".sec", exactly ".resources[0]", exactly ".secret"] (.string "hunter2")
    ".secret" [] rfl).1, rfl⟩

/-- C19: for every tree in which a child, in particular an object or an array, has a path
matching some pattern while no ancestor of it has, a walk in encrypt mode that returns no
error leaves in the child's slot one string that begins with `tfb_`, and no path that
continues below the child leads to anything in the resulting tree. -/
theorem matched_container_becomes_string (e : Elastic) (res : List Regexp) (t : Value)
    (p : List Step) (x : Value) (log : List Call)
    (hchild : p ≠ [])
    (hx : t.at p = some x)
    (hmatch : matchesAny res (pathOf "" p) = true)
    (hancestors : ∀ q, q <+: p → q ≠ [] → q ≠ p → matchesAny res (pathOf "" q) = false)
    (hok : (TraverseAndModify e res true t "" log).2.2 = none) :
    ∃ s, (TraverseAndModify e res true t "" log).1.at p = some (.string s) ∧
      HasPrefix s "tfb_" = true ∧
      ∀ q, q ≠ [] → (TraverseAndModify e res true t "" log).1.at (p ++ q) = none := by
  obtain ⟨h, ct, _, hat⟩ :=
    encrypt_at_matched e res x p t "" log hchild hx hmatch hancestors hok
  refine ⟨"tfb_" ++ ct, hat, HasPrefix_append _ _, ?_⟩
  intro q hq
  rw [at_append, hat]
  exact at_below_string _ q hq

/-- Witness for C19: the object `db` of `{"db": {"password": "pw", "user": "admin"}}` with the
pattern `^\.db$`. -/
theorem matched_container_becomes_string_witness :
    dbTree.at [.key "db"] = some (.map [("password", .string "pw"), ("user", .string "admin")]) ∧
    (TraverseAndModify (demo [] echoVault) [exactly ".db"] true dbTree "" []).1 =
      .map [("db", .string "tfb_vault:map[password:pw user:admin]")] ∧
    ∃ s, (TraverseAndModify (demo [] echoVault) [exactly ".db"] true dbTree "" []).1.at
        [.key "db"] = some (.string s) ∧
      HasPrefix s "tfb_" = true ∧
      ∀ q, q ≠ [] → (TraverseAndModify (demo [] echoVault) [exactly ".db"] true dbTree ""
        []).1.at ([.key "db"] ++ q) = none :=
  ⟨rfl, rfl, matched_container_becomes_string (demo [] echoVault) [exactly ".db"] dbTree
    [.key "db"] (.map [("password", .string "pw"), ("user", .string "admin")]) []
    (by simp) rfl rfl
    (fun q hq hne hnp => by
      rcases prefix_singleton _ q hq with h | h
      · exact absurd h hne
      · exact absurd h hnp)
    rfl⟩

end Tfb
